import Mathlib

/-!
Verification of the GW18 in-place matrix transposition engine
(`src/ntt/src/permute/gw18.rs`).

The Rust code operates in place on a mutable slice.  We embed it shallowly:
a buffer is a `List α`, and every in-place operation becomes a function from
the old buffer to the new one.  Sub-slice operations (`values[b..]`,
`split_at_mut`, …) become `List.take`/`List.drop`, and writing a transformed
sub-slice back into the buffer becomes re-concatenation with the untouched
parts.  `rayon::join f g` runs `f` and `g` on the two disjoint sub-slices of
a `split_at_mut` and returns once both are complete, so its effect on the
buffer is exactly that of running the two closures one after the other; the
embedding therefore performs the two recursive calls in sequence, and the
`PAR_THRESHOLD` gates (whose two branches issue the same two calls) are not
represented.

`exchange` recurses without any a-priori bound visible to Lean (and for the
degenerate arguments `a = 0 < b` or `b = 0 < a` the Rust code genuinely
never terminates), so the recursive workers are written with an explicit
fuel argument and return `Option`: `none` means the fuel was exhausted, and
a `none` result for every fuel models divergence.  The public wrappers
supply fuel that is proved sufficient on every input on which the Rust
code terminates.  All functions are structurally recursive (on the fuel),
so concrete runs reduce by `decide`/`rfl`.

Machine integers: the buffer length and the shape are Rust `usize` values.
All arithmetic performed by the code on them (`+`, `*`, `/`, `%`) is modeled
on `Nat`; the single place where 64-bit overflow is observable — the
`assert_eq!(values.len(), rows * cols)` at the top of `transpose`, whose
product wraps in release builds — is modeled explicitly with `% 2 ^ 64`
(`usizeWrap`).
-/

set_option linter.unusedSectionVars false

namespace GW18

variable {α : Type} [Inhabited α]

/-- Release-build `usize` multiplication wraps modulo `2 ^ 64`; this is the
value the overflowing product `rows * cols` actually takes. -/
def usizeWrap (n : Nat) : Nat := n % 2 ^ 64

/-- Fuel-bounded base-2 logarithm: `log2F fuel n = ⌊log₂ n⌋` whenever
`1 ≤ n ≤ fuel` (and `0` for `n ≤ 1`).  Structurally recursive so that the
kernel can evaluate it, unlike `Nat.log2`. -/
def log2F : Nat → Nat → Nat
  | 0, _ => 0
  | fuel + 1, n => if n ≤ 1 then 0 else log2F fuel (n / 2) + 1

/-- Model of `largest_power_of_two` (gw18.rs line 342):
`2_usize.pow((m as f64 - 1.).log2() as u32)`.

The source computes `⌊log₂ (m − 1)⌋` through `f64::log2`.  We model it with
the exact integer logarithm: for every `m` with `2 ≤ m` and `m − 1` small
enough that the floating-point logarithm truncates to the exact floor
(which covers every buffer that fits in memory), the two agree, and the two
degenerate inputs agree as well (`m ≤ 1` gives `-inf`/`NaN`, whose `u32`
cast is `0`, so the source returns `2^0 = 1`, as does the model). -/
def largest_power_of_two (m : Nat) : Nat := 2 ^ log2F (m - 1) (m - 1)

/-- Model of `exchange` (gw18.rs lines 323–340), fuel-bounded.

```text
fn exchange<T: Copy>(values: &mut [T], a: usize, b: usize) {
    if a == b {
        let (left, right) = values.split_at_mut(a);
        left.swap_with_slice(right);
    } else if a > b {
        let (left, remainder) = values.split_at_mut(b);
        let (_middle, right) = remainder.split_at_mut(a - b);
        left.swap_with_slice(right);
        exchange(&mut values[b..], a - b, b);
    } else {
        let (left, remainder) = values.split_at_mut(a);
        let (_middle, right) = remainder.split_at_mut(b - a);
        left.swap_with_slice(right);
        exchange(&mut values[..b], a, b - a);
    }
}
```

For `|v| = a + b` the case `a = b` swaps the two halves; the case `a > b`
swaps `v[0..b]` with `v[a..a+b]` and recurses on `v[b..]`; the case `a < b`
swaps `v[0..a]` with `v[b..a+b]` and recurses on `v[..b]`.  Each swap is
expressed by rebuilding the list from its pieces.  `none` means the fuel ran
out; the recursion of the source decreases `a + b` only when both `a` and
`b` are positive, and for `a = 0 < b` or `b = 0 < a` it literally loops on
identical arguments, so no fuel suffices there (the Rust build overflows
its stack). -/
def exchangeF : Nat → List α → Nat → Nat → Option (List α)
  | 0, _, _, _ => none
  | fuel + 1, v, a, b =>
    if a = b then
      some (v.drop a ++ v.take a)
    else if b < a then
      let v2 := v.drop a ++ ((v.drop b).take (a - b) ++ v.take b)
      (exchangeF fuel (v2.drop b) (a - b) b).map (fun r => v2.take b ++ r)
    else
      let v2 := v.drop b ++ ((v.drop a).take (b - a) ++ v.take a)
      (exchangeF fuel (v2.take b) a (b - a)).map (fun r => r ++ v2.drop b)

/-- `exchange` with the canonical fuel `a + b + 1`, which is sufficient on
every input on which the source terminates. -/
def exchange (v : List α) (a b : Nat) : Option (List α) :=
  exchangeF (a + b + 1) v a b

/-- The divergence of `exchange` on the degenerate arguments, as a
proposition: no amount of fuel produces a result, i.e. the recursion of the
source never returns. -/
def exchangeDiverges (v : List α) (a b : Nat) : Prop :=
  ∀ fuel, exchangeF fuel v a b = none

/-- Model of `shuffle` (gw18.rs lines 253–284), fuel-bounded.

```text
fn shuffle<T: Copy + Send>(values: &mut [T], a: usize, b: usize, m: usize) {
    debug_assert_eq!(values.len(), (a + b) * m);
    if m <= 1 { return; }
    let m_left = largest_power_of_two(m);
    let m_right = m - m_left;
    if (a * m_right > 0) & (b * m_left > 0) {
        let start = a * m_left;
        let end = start + a * m_right + b * m_left;
        exchange(&mut values[start..end], a * m_right, b * m_left);
    }
    let (left, right) = values.split_at_mut((a + b) * m_left);
    shuffle(left, a, b, m_left);
    shuffle(right, a, b, m_right);
}
```

(The `size < PAR_THRESHOLD` gate selects between issuing the two recursive
calls directly or under `rayon::join`; both run the same two calls on the
two disjoint halves.)  The guarded `exchange` on `values[start..end]` is
expressed by splitting the buffer around the segment and re-concatenating.
`debug_assert`s are compiled out in release builds and are not modeled. -/
def shuffleF : Nat → List α → Nat → Nat → Nat → Option (List α)
  | 0, _, _, _, _ => none
  | fuel + 1, v, a, b, m =>
    if m ≤ 1 then some v
    else
      let mL := largest_power_of_two m
      let mR := m - mL
      let step :=
        if 0 < a * mR ∧ 0 < b * mL then
          (exchange ((v.drop (a * mL)).take (a * mR + b * mL)) (a * mR) (b * mL)).map
            (fun w => v.take (a * mL) ++ (w ++ v.drop (a * mL + (a * mR + b * mL))))
        else some v
      step.bind (fun v1 =>
        (shuffleF fuel (v1.take ((a + b) * mL)) a b mL).bind (fun l =>
          (shuffleF fuel (v1.drop ((a + b) * mL)) a b mR).map (fun r => l ++ r)))

/-- `shuffle` with the canonical fuel `m + 1` (the recursion strictly
decreases `m`). -/
def shuffle (v : List α) (a b m : Nat) : Option (List α) :=
  shuffleF (m + 1) v a b m

/-- Model of `unshuffle` (gw18.rs lines 288–320), fuel-bounded.

```text
fn unshuffle<T: Copy + Send>(values: &mut [T], a: usize, b: usize, m: usize) {
    debug_assert_eq!(values.len(), (a + b) * m);
    if m <= 1 { return; }
    let m_left = largest_power_of_two(m);
    let m_right = m - m_left;
    let (left, right) = values.split_at_mut((a + b) * m_left);
    unshuffle(left, a, b, m_left);
    unshuffle(right, a, b, m_right);
    if (a * m_right > 0) & (b * m_left > 0) {
        let start = a * m_left;
        let end = start + b * m_left + a * m_right;
        exchange(&mut values[start..end], b * m_left, a * m_right);
    }
}
```

Identical to `shuffle` except that the recursion happens before the middle
`exchange` and the two `exchange` lengths are reversed. -/
def unshuffleF : Nat → List α → Nat → Nat → Nat → Option (List α)
  | 0, _, _, _, _ => none
  | fuel + 1, v, a, b, m =>
    if m ≤ 1 then some v
    else
      let mL := largest_power_of_two m
      let mR := m - mL
      (unshuffleF fuel (v.take ((a + b) * mL)) a b mL).bind (fun l =>
        (unshuffleF fuel (v.drop ((a + b) * mL)) a b mR).bind (fun r =>
          let v1 := l ++ r
          if 0 < a * mR ∧ 0 < b * mL then
            (exchange ((v1.drop (a * mL)).take (b * mL + a * mR)) (b * mL) (a * mR)).map
              (fun w => v1.take (a * mL) ++ (w ++ v1.drop (a * mL + (b * mL + a * mR))))
          else some v1))

/-- `unshuffle` with the canonical fuel `m + 1`. -/
def unshuffle (v : List α) (a b m : Nat) : Option (List α) :=
  unshuffleF (m + 1) v a b m

/-- The row-major transpose, as a pure specification: for a buffer `v`
holding a `rows × cols` row-major matrix, the result holds the transposed
`cols × rows` row-major matrix, i.e. entry `j * rows + i` of the result is
entry `i * cols + j` of `v`.  (With `idx = j * rows + i`, `i = idx % rows`
and `j = idx / rows`.)  This is also the reference oracle the repository's
tests compare against. -/
def transposeSpec (v : List α) (rows cols : Nat) : List α :=
  (List.range (rows * cols)).map
    (fun idx => v.getD ((idx % rows) * cols + idx / rows) default)

/-- Modelled from the spec: `square_transpose(V, n)` is the collaborator
`square::transpose`, whose source is not under `src/`.  Spec §6: an
in-place transpose of an `n × n` row-major matrix, for arbitrary `n ≥ 1`. -/
def square_transpose (v : List α) (n : Nat) : List α :=
  transposeSpec v n n

/-- Modelled from the spec: `copy_transpose(V, rows, cols)` is the
collaborator `copy::transpose`, whose source is not under `src/`.  Spec §6:
an in-place transpose of a `rows × cols` row-major matrix via a temporary
buffer; it is the trusted comparison oracle of the test suite. -/
def copy_transpose (v : List α) (rows cols : Nat) : List α :=
  transposeSpec v rows cols

/-- Model of the free function `transpose_join` (gw18.rs lines 192–220),
fuel-bounded.

```text
fn transpose_join<T: Copy + Send>(values: &mut [T], blocks: usize, size: usize) {
    debug_assert_eq!(values.len(), blocks * size * size);
    if blocks == 1 {
        square::transpose(values, size);
    } else {
        let blocks_top = blocks / 2;
        let blocks_bottom = blocks - blocks_top;
        let (top, bottom) = values.split_at_mut(blocks_top * size * size);
        transpose_join(top, blocks_top, size);       // under rayon::join when large
        transpose_join(bottom, blocks_bottom, size);
        shuffle(values, blocks_top * size, blocks_bottom * size, size);
    }
}
``` -/
def transpose_joinF : Nat → List α → Nat → Nat → Option (List α)
  | 0, _, _, _ => none
  | fuel + 1, v, blocks, size =>
    if blocks = 1 then some (square_transpose v size)
    else
      let bT := blocks / 2
      let bB := blocks - bT
      (transpose_joinF fuel (v.take (bT * size * size)) bT size).bind (fun t =>
        (transpose_joinF fuel (v.drop (bT * size * size)) bB size).bind (fun b' =>
          shuffle (t ++ b') (bT * size) (bB * size) size))

/-- `transpose_join` with the canonical fuel `blocks + 1` (each recursive
call strictly decreases `blocks`). -/
def transpose_join (v : List α) (blocks size : Nat) : Option (List α) :=
  transpose_joinF (blocks + 1) v blocks size

/-- Model of `partition_transpose` (gw18.rs lines 222–250), fuel-bounded.

```text
fn partition_transpose<T: Copy + Send>(values: &mut [T], blocks: usize, size: usize) {
    debug_assert_eq!(values.len(), blocks * size * size);
    if blocks == 1 {
        square::transpose(values, size);
    } else {
        let blocks_top = blocks / 2;
        let blocks_bottom = blocks - blocks_top;
        unshuffle(values, blocks_top * size, blocks_bottom * size, size);
        let (top, bottom) = values.split_at_mut(blocks_top * size * size);
        partition_transpose(top, blocks_top, size);   // under rayon::join when large
        partition_transpose(bottom, blocks_bottom, size);
    }
}
``` -/
def partition_transposeF : Nat → List α → Nat → Nat → Option (List α)
  | 0, _, _, _ => none
  | fuel + 1, v, blocks, size =>
    if blocks = 1 then some (square_transpose v size)
    else
      let bT := blocks / 2
      let bB := blocks - bT
      (unshuffle v (bT * size) (bB * size) size).bind (fun v1 =>
        (partition_transposeF fuel (v1.take (bT * size * size)) bT size).bind (fun t =>
          (partition_transposeF fuel (v1.drop (bT * size * size)) bB size).map
            (fun b' => t ++ b')))

/-- `partition_transpose` with the canonical fuel `blocks + 1`. -/
def partition_transpose (v : List α) (blocks size : Nat) : Option (List α) :=
  partition_transposeF (blocks + 1) v blocks size

/-- Model of the top-level `transpose` (gw18.rs lines 128–190) below its
length assertion, fuel-bounded and parametrized by `COPY_THRESHOLD`
(`1 << 14` in production builds, `4` under `cfg!(test)`).

```text
pub fn transpose<T: Copy + Send + Sync>(values: &mut [T], (rows, cols): (usize, usize)) {
    assert_eq!(values.len(), rows * cols);
    let size = rows * cols;
    if rows <= 1 || cols <= 1 {
        return;
    } else if rows == cols {
        square::transpose(values, rows)
    } else if size <= COPY_THRESHOLD {
        copy::transpose(values, (rows, cols));
    } else if rows > cols {
        let (squares, remainder) = (rows / cols, rows % cols);
        if remainder == 0 {
            transpose_join(values, squares, cols);
        } else {
            let (head, tail) = values.split_at_mut(squares * cols * cols);
            transpose_join(head, squares, cols);      // under rayon::join when large
            transpose(tail, (remainder, cols));
            shuffle(values, squares * cols, remainder, cols);
        }
    } else {
        let (squares, remainder) = (cols / rows, cols % rows);
        if remainder == 0 {
            partition_transpose(values, squares, rows);
        } else {
            unshuffle(values, squares * rows, remainder, rows);
            let (head, tail) = values.split_at_mut(squares * rows * rows);
            partition_transpose(head, squares, rows); // under rayon::join when large
            transpose(tail, (rows, remainder));
        }
    }
}
``` -/
def transposeF (copyT : Nat) : Nat → List α → Nat → Nat → Option (List α)
  | 0, _, _, _ => none
  | fuel + 1, v, rows, cols =>
    if rows ≤ 1 ∨ cols ≤ 1 then some v
    else if rows = cols then some (square_transpose v rows)
    else if rows * cols ≤ copyT then some (copy_transpose v rows cols)
    else if cols < rows then
      let squares := rows / cols
      let remainder := rows % cols
      if remainder = 0 then transpose_join v squares cols
      else
        (transpose_join (v.take (squares * cols * cols)) squares cols).bind (fun h =>
          (transposeF copyT fuel (v.drop (squares * cols * cols)) remainder cols).bind
            (fun t => shuffle (h ++ t) (squares * cols) remainder cols))
    else
      let squares := cols / rows
      let remainder := cols % rows
      if remainder = 0 then partition_transpose v squares rows
      else
        (unshuffle v (squares * rows) remainder rows).bind (fun v1 =>
          (partition_transpose (v1.take (squares * rows * rows)) squares rows).bind (fun h =>
            (transposeF copyT fuel (v1.drop (squares * rows * rows)) rows remainder).map
              (fun t => h ++ t)))

/-- The public `transpose(V, (rows, cols))`: the length assertion (whose
compared product is the release-build wrapping multiplication) followed by
the dispatch, with the production `COPY_THRESHOLD = 1 << 14` and fuel
`rows * cols + 1` (each recursive call strictly decreases `rows * cols`).
`none` models an abort. -/
def transpose (v : List α) (rows cols : Nat) : Option (List α) :=
  if v.length = usizeWrap (rows * cols) then
    transposeF (1 <<< 14) (rows * cols + 1) v rows cols
  else none

/-- Specification helper: `riffle2 a b m xs ys` interleaves `m` chunks of
length `a` from `xs` with `m` chunks of length `b` from `ys`:
`(A0 B0 A1 B1 …)` from `(A0 A1 …)` and `(B0 B1 …)`.  This is the documented
output shape of `shuffle` on the layout `(a * m ‖ b * m)`. -/
def riffle2 (a b : Nat) : Nat → List α → List α → List α
  | 0, _, _ => []
  | m + 1, xs, ys => xs.take a ++ ys.take b ++ riffle2 a b m (xs.drop a) (ys.drop b)

/-- Specification helper: the concatenation of the `a`-prefixes of the `m`
consecutive `(a+b)`-groups of `v` — the `A`-run produced by `unshuffle`. -/
def evens (a b : Nat) : Nat → List α → List α
  | 0, _ => []
  | m + 1, v => v.take a ++ evens a b m (v.drop (a + b))

/-- Specification helper: the concatenation of the `b`-suffixes of the `m`
consecutive `(a+b)`-groups of `v` — the `B`-run produced by `unshuffle`. -/
def odds (a b : Nat) : Nat → List α → List α
  | 0, _ => []
  | m + 1, v => (v.drop a).take b ++ odds a b m (v.drop (a + b))

/-! ### Basic `getD` facts used throughout -/

theorem getD_append_left (xs ys : List α) (d : α) {i : Nat} (h : i < xs.length) :
    (xs ++ ys).getD i d = xs.getD i d := by
  simp [List.getD_eq_getElem?_getD, List.getElem?_append_left h]

theorem getD_append_right (xs ys : List α) (d : α) {i : Nat} (h : xs.length ≤ i) :
    (xs ++ ys).getD i d = ys.getD (i - xs.length) d := by
  simp [List.getD_eq_getElem?_getD, List.getElem?_append_right h]

theorem getD_drop (l : List α) (d : α) (n i : Nat) :
    (l.drop n).getD i d = l.getD (n + i) d := by
  simp [List.getD_eq_getElem?_getD, List.getElem?_drop]

theorem getD_take (l : List α) (d : α) {n i : Nat} (h : i < n) :
    (l.take n).getD i d = l.getD i d := by
  simp [List.getD_eq_getElem?_getD, List.getElem?_take, h]

theorem getD_rangeMap (f : Nat → α) (d : α) {N i : Nat} (h : i < N) :
    ((List.range N).map f).getD i d = f i := by
  simp [List.getD_eq_getElem?_getD, List.getElem?_map, List.getElem?_range h]

theorem getD_irrel (l : List α) (d d' : α) {i : Nat} (h : i < l.length) :
    l.getD i d = l.getD i d' := by
  rw [List.getD_eq_getElem l d h, List.getD_eq_getElem l d' h]

theorem take_append_right (xs ys : List α) {n k : Nat} (hk : xs.length = k)
    (hn : k ≤ n) : (xs ++ ys).take n = xs ++ ys.take (n - k) := by
  rw [List.take_append_eq_append_take, hk, List.take_of_length_le (by omega : xs.length ≤ n)]

theorem drop_append_right (xs ys : List α) {n k : Nat} (hk : xs.length = k)
    (hn : k ≤ n) : (xs ++ ys).drop n = ys.drop (n - k) := by
  rw [List.drop_append_eq_append_drop, hk, List.drop_of_length_le (by omega : xs.length ≤ n)]
  simp

theorem take_append_left (xs ys : List α) {n : Nat} (h : n ≤ xs.length) :
    (xs ++ ys).take n = xs.take n := by
  rw [List.take_append_eq_append_take, Nat.sub_eq_zero_of_le h, List.take_zero,
    List.append_nil]

theorem drop_append_left (xs ys : List α) {n : Nat} (h : n ≤ xs.length) :
    (xs ++ ys).drop n = xs.drop n ++ ys := by
  rw [List.drop_append_eq_append_drop, Nat.sub_eq_zero_of_le h, List.drop_zero]

/-! ### `exchange`: termination and correctness on the non-degenerate inputs,
divergence on the degenerate ones -/

/-- With enough fuel, `exchange` rotates `A ‖ B` to `B ‖ A`: the recursion of
the source terminates on `|v| = a + b` whenever `a = b` or both lengths are
positive, and the result is `v.drop a ++ v.take a`. -/
theorem exchangeF_eq : ∀ (fuel : Nat) (v : List α) (a b : Nat), a + b < fuel →
    v.length = a + b → (a = b ∨ (1 ≤ a ∧ 1 ≤ b)) →
    exchangeF fuel v a b = some (v.drop a ++ v.take a)
  | 0, _, _, _, h, _, _ => absurd h (Nat.not_lt_zero _)
  | fuel + 1, v, a, b, hfuel, hv, hab => by
    by_cases heq : a = b
    · simp [exchangeF, heq]
    · obtain ⟨ha, hb⟩ : 1 ≤ a ∧ 1 ≤ b := hab.resolve_left heq
      by_cases hba : b < a
      · have h1 : (v.drop a).length = b := by simp [hv]
        have h2 : ((v.drop b).take (a - b)).length = a - b := by simp [hv]
        have h3 : (v.take b).length = b := by simp [hv]
        simp only [exchangeF, if_neg heq, if_pos hba]
        rw [List.drop_left' h1]
        rw [exchangeF_eq fuel _ (a - b) b (by omega)
            (by simp [List.length_append, h2, h3])
            (Or.inr ⟨by omega, hb⟩)]
        rw [List.drop_left' h2, List.take_left' h2, List.take_left' h1]
        have hjoin : v.take b ++ (v.drop b).take (a - b) = v.take a := by
          rw [← List.take_add v b (a - b)]
          congr 1
          omega
        simp only [Option.map_some']
        rw [hjoin]
      · have hab' : a < b := by omega
        have h1 : (v.drop b).length = a := by simp [hv]
        have h2 : ((v.drop a).take (b - a)).length = b - a := by simp [hv]
        simp only [exchangeF, if_neg heq, if_neg hba]
        have htake : (v.drop b ++ ((v.drop a).take (b - a) ++ v.take a)).take b
            = v.drop b ++ (v.drop a).take (b - a) := by
          rw [take_append_right _ _ h1 (by omega),
            take_append_right _ _ h2 (by omega : b - a ≤ b - a),
            Nat.sub_self, List.take_zero, List.append_nil]
        have hdrop : (v.drop b ++ ((v.drop a).take (b - a) ++ v.take a)).drop b
            = v.take a := by
          rw [drop_append_right _ _ h1 (by omega),
            drop_append_right _ _ h2 (by omega : b - a ≤ b - a),
            Nat.sub_self, List.drop_zero]
        rw [htake, hdrop]
        rw [exchangeF_eq fuel _ a (b - a) (by omega)
            (by simp [List.length_append, h1, h2])
            (Or.inr ⟨ha, by omega⟩)]
        rw [List.drop_left' h1, List.take_left' h1]
        have hsplit : (v.drop a).take (b - a) ++ v.drop b = v.drop a := by
          have : v.drop b = (v.drop a).drop (b - a) := by
            rw [List.drop_drop]
            congr 1
            omega
          rw [this, List.take_append_drop]
        simp only [Option.map_some']
        rw [List.append_assoc, ← List.append_assoc _ (v.drop b), hsplit]

/-- `exchange` returns, and rotates `A ‖ B` to `B ‖ A`, whenever the source
terminates (`a = b` or both positive) and the slice has the contract
length. -/
theorem exchange_eq (v : List α) (a b : Nat) (hv : v.length = a + b)
    (hab : a = b ∨ (1 ≤ a ∧ 1 ≤ b)) :
    exchange v a b = some (v.drop a ++ v.take a) :=
  exchangeF_eq _ v a b (Nat.lt_succ_self _) hv hab

/-- With `a = 0 < b` the recursion of `exchange` reproduces its own
arguments, so no fuel suffices: the source loops forever. -/
theorem exchangeF_zero_left : ∀ (fuel : Nat) (v : List α) (b : Nat), b ≠ 0 →
    exchangeF fuel v 0 b = none
  | 0, _, _, _ => rfl
  | fuel + 1, v, b, hb => by
    simp only [exchangeF, if_neg (by omega : ¬ (0 : Nat) = b),
      if_neg (by omega : ¬ b < 0), Nat.sub_zero]
    rw [exchangeF_zero_left fuel _ b hb]
    rfl

/-- With `b = 0 < a` the recursion of `exchange` reproduces its own
arguments, so no fuel suffices: the source loops forever. -/
theorem exchangeF_zero_right : ∀ (fuel : Nat) (v : List α) (a : Nat), a ≠ 0 →
    exchangeF fuel v a 0 = none
  | 0, _, _, _ => rfl
  | fuel + 1, v, a, ha => by
    simp only [exchangeF, if_neg (by omega : ¬ a = 0),
      if_pos (by omega : 0 < a), Nat.sub_zero]
    rw [exchangeF_zero_right fuel _ a ha]
    rfl

/-! ### The interleaving specification: lengths, splitting, degenerate cases,
and mutual inversion -/

theorem riffle2_length (a b : Nat) : ∀ (m : Nat) (xs ys : List α),
    xs.length = a * m → ys.length = b * m →
    (riffle2 a b m xs ys).length = (a + b) * m
  | 0, xs, ys, _, _ => by simp [riffle2]
  | m + 1, xs, ys, hx, hy => by
    have hx' : (xs.drop a).length = a * m := by
      rw [List.length_drop, hx, Nat.mul_succ]; omega
    have hy' : (ys.drop b).length = b * m := by
      rw [List.length_drop, hy, Nat.mul_succ]; omega
    simp only [riffle2, List.length_append, List.length_take, hx, hy,
      riffle2_length a b m _ _ hx' hy']
    rw [Nat.min_eq_left (by rw [Nat.mul_succ]; omega),
      Nat.min_eq_left (by rw [Nat.mul_succ]; omega),
      Nat.mul_succ (a + b) m]
    omega

theorem evens_length (a b : Nat) : ∀ (m : Nat) (v : List α),
    v.length = (a + b) * m → (evens a b m v).length = a * m
  | 0, _, _ => by simp [evens]
  | m + 1, v, h => by
    have h' : (v.drop (a + b)).length = (a + b) * m := by
      rw [List.length_drop, h, Nat.mul_succ]; omega
    simp only [evens, List.length_append, List.length_take,
      evens_length a b m _ h', h]
    rw [Nat.min_eq_left (by rw [Nat.mul_succ]; omega), Nat.mul_succ]
    omega

theorem odds_length (a b : Nat) : ∀ (m : Nat) (v : List α),
    v.length = (a + b) * m → (odds a b m v).length = b * m
  | 0, _, _ => by simp [odds]
  | m + 1, v, h => by
    have h' : (v.drop (a + b)).length = (a + b) * m := by
      rw [List.length_drop, h, Nat.mul_succ]; omega
    simp only [odds, List.length_append, List.length_take, List.length_drop,
      odds_length a b m _ h', h]
    rw [Nat.min_eq_left (by rw [Nat.mul_succ]; omega), Nat.mul_succ]
    omega

theorem riffle2_split (a b : Nat) : ∀ (mL mR : Nat) (xs ys : List α),
    riffle2 a b (mL + mR) xs ys =
      riffle2 a b mL (xs.take (a * mL)) (ys.take (b * mL)) ++
        riffle2 a b mR (xs.drop (a * mL)) (ys.drop (b * mL))
  | 0, mR, xs, ys => by simp [riffle2]
  | mL + 1, mR, xs, ys => by
    have hadd : mL + 1 + mR = (mL + mR) + 1 := by omega
    have hsub : ∀ c : Nat, c * (mL + 1) - c = c * mL := by
      intro c; rw [Nat.mul_succ]; omega
    rw [hadd]
    simp only [riffle2]
    rw [riffle2_split a b mL mR (xs.drop a) (ys.drop b)]
    rw [List.take_take, Nat.min_eq_left (by rw [Nat.mul_succ]; omega),
      List.take_take, Nat.min_eq_left (by rw [Nat.mul_succ]; omega)]
    rw [List.drop_take, hsub a, List.drop_take, hsub b]
    rw [show a * (mL + 1) = a + a * mL by rw [Nat.mul_succ]; omega,
      show b * (mL + 1) = b + b * mL by rw [Nat.mul_succ]; omega,
      ← List.drop_drop, ← List.drop_drop]
    simp [List.append_assoc]

theorem evens_split (a b : Nat) : ∀ (mL mR : Nat) (v : List α),
    evens a b (mL + mR) v =
      evens a b mL (v.take ((a + b) * mL)) ++ evens a b mR (v.drop ((a + b) * mL))
  | 0, mR, v => by simp [evens]
  | mL + 1, mR, v => by
    have hadd : mL + 1 + mR = (mL + mR) + 1 := by omega
    rw [hadd]
    simp only [evens]
    rw [evens_split a b mL mR (v.drop (a + b))]
    rw [List.take_take, Nat.min_eq_left (by rw [Nat.mul_succ]; omega)]
    rw [List.drop_take, show (a + b) * (mL + 1) - (a + b) = (a + b) * mL by
      rw [Nat.mul_succ]; omega]
    rw [show (a + b) * (mL + 1) = (a + b) + (a + b) * mL by rw [Nat.mul_succ]; omega,
      ← List.drop_drop]
    simp [List.append_assoc]

theorem odds_split (a b : Nat) : ∀ (mL mR : Nat) (v : List α),
    odds a b (mL + mR) v =
      odds a b mL (v.take ((a + b) * mL)) ++ odds a b mR (v.drop ((a + b) * mL))
  | 0, mR, v => by simp [odds]
  | mL + 1, mR, v => by
    have hadd : mL + 1 + mR = (mL + mR) + 1 := by omega
    rw [hadd]
    simp only [odds]
    rw [odds_split a b mL mR (v.drop (a + b))]
    rw [List.drop_take ((a + b) * (mL + 1)) a v, List.take_take,
      Nat.min_eq_left (by rw [Nat.mul_succ]; omega : b ≤ (a + b) * (mL + 1) - a)]
    rw [List.drop_take ((a + b) * (mL + 1)) (a + b) v,
      show (a + b) * (mL + 1) - (a + b) = (a + b) * mL from by rw [Nat.mul_succ]; omega]
    rw [show (a + b) * (mL + 1) = (a + b) + (a + b) * mL from by rw [Nat.mul_succ]; omega,
      ← List.drop_drop]
    simp [List.append_assoc]

theorem riffle2_zero_left (b : Nat) : ∀ (m : Nat) (xs ys : List α),
    ys.length = b * m → riffle2 0 b m xs ys = ys
  | 0, xs, ys, h => by
    simp only [riffle2]
    exact (List.length_eq_zero.mp (by omega)).symm
  | m + 1, xs, ys, h => by
    simp only [riffle2, List.take_zero, List.nil_append]
    rw [riffle2_zero_left b m (xs.drop 0) (ys.drop b)
      (by rw [List.length_drop, h, Nat.mul_succ]; omega)]
    exact List.take_append_drop b ys

theorem riffle2_zero_right (a : Nat) : ∀ (m : Nat) (xs ys : List α),
    xs.length = a * m → riffle2 a 0 m xs ys = xs
  | 0, xs, ys, h => by
    simp only [riffle2]
    exact (List.length_eq_zero.mp (by omega)).symm
  | m + 1, xs, ys, h => by
    simp only [riffle2, List.take_zero, List.append_nil]
    rw [riffle2_zero_right a m (xs.drop a) (ys.drop 0)
      (by rw [List.length_drop, h, Nat.mul_succ]; omega)]
    exact List.take_append_drop a xs

theorem evens_zero (b : Nat) : ∀ (m : Nat) (v : List α), evens 0 b m v = []
  | 0, _ => rfl
  | m + 1, v => by simp [evens, evens_zero b m]

theorem odds_zero (a : Nat) : ∀ (m : Nat) (v : List α), odds a 0 m v = []
  | 0, _ => rfl
  | m + 1, v => by simp [odds, odds_zero a m]

theorem evens_full (a : Nat) : ∀ (m : Nat) (v : List α),
    v.length = a * m → evens a 0 m v = v
  | 0, v, h => (List.length_eq_zero.mp (by omega)).symm
  | m + 1, v, h => by
    simp only [evens, Nat.add_zero]
    rw [evens_full a m (v.drop a) (by rw [List.length_drop, h, Nat.mul_succ]; omega)]
    exact List.take_append_drop a v

theorem odds_full (b : Nat) : ∀ (m : Nat) (v : List α),
    v.length = b * m → odds 0 b m v = v
  | 0, v, h => (List.length_eq_zero.mp (by omega)).symm
  | m + 1, v, h => by
    simp only [odds, Nat.zero_add, List.drop_zero]
    rw [odds_full b m (v.drop b) (by rw [List.length_drop, h, Nat.mul_succ]; omega)]
    exact List.take_append_drop b v

theorem evens_riffle2 (a b : Nat) : ∀ (m : Nat) (xs ys : List α),
    xs.length = a * m → ys.length = b * m →
    evens a b m (riffle2 a b m xs ys) = xs
  | 0, xs, ys, hx, _ => (List.length_eq_zero.mp (by omega)).symm
  | m + 1, xs, ys, hx, hy => by
    have h1 : (xs.take a).length = a := by
      rw [List.length_take, hx, Nat.min_eq_left (by rw [Nat.mul_succ]; omega)]
    have h2 : (ys.take b).length = b := by
      rw [List.length_take, hy, Nat.min_eq_left (by rw [Nat.mul_succ]; omega)]
    simp only [riffle2, evens]
    rw [List.append_assoc]
    rw [take_append_right _ _ h1 (Nat.le_refl a), Nat.sub_self,
      List.take_zero, List.append_nil]
    rw [drop_append_right _ _ h1 (by omega : a ≤ a + b), Nat.add_sub_cancel_left]
    rw [drop_append_right _ _ h2 (Nat.le_refl b), Nat.sub_self, List.drop_zero]
    rw [evens_riffle2 a b m (xs.drop a) (ys.drop b)
      (by rw [List.length_drop, hx, Nat.mul_succ]; omega)
      (by rw [List.length_drop, hy, Nat.mul_succ]; omega)]
    exact List.take_append_drop a xs

theorem odds_riffle2 (a b : Nat) : ∀ (m : Nat) (xs ys : List α),
    xs.length = a * m → ys.length = b * m →
    odds a b m (riffle2 a b m xs ys) = ys
  | 0, xs, ys, _, hy => (List.length_eq_zero.mp (by omega)).symm
  | m + 1, xs, ys, hx, hy => by
    have h1 : (xs.take a).length = a := by
      rw [List.length_take, hx, Nat.min_eq_left (by rw [Nat.mul_succ]; omega)]
    have h2 : (ys.take b).length = b := by
      rw [List.length_take, hy, Nat.min_eq_left (by rw [Nat.mul_succ]; omega)]
    simp only [riffle2, odds]
    rw [List.append_assoc]
    rw [drop_append_right _ _ h1 (Nat.le_refl a), Nat.sub_self, List.drop_zero]
    rw [take_append_right _ _ h2 (Nat.le_refl b), Nat.sub_self, List.take_zero,
      List.append_nil]
    rw [drop_append_right _ _ h1 (by omega : a ≤ a + b), Nat.add_sub_cancel_left]
    rw [drop_append_right _ _ h2 (Nat.le_refl b), Nat.sub_self, List.drop_zero]
    rw [odds_riffle2 a b m (xs.drop a) (ys.drop b)
      (by rw [List.length_drop, hx, Nat.mul_succ]; omega)
      (by rw [List.length_drop, hy, Nat.mul_succ]; omega)]
    exact List.take_append_drop b ys

theorem log2F_le : ∀ (fuel n : Nat), 1 ≤ n → n ≤ fuel → 2 ^ log2F fuel n ≤ n
  | 0, n, h1, h2 => by omega
  | fuel + 1, n, h1, h2 => by
    simp only [log2F]
    by_cases h : n ≤ 1
    · simpa [h] using h1
    · rw [if_neg h]
      have hrec := log2F_le fuel (n / 2) (by omega) (by omega)
      rw [Nat.pow_succ]
      omega

theorem largest_power_of_two_pos (m : Nat) : 1 ≤ largest_power_of_two m :=
  Nat.pow_pos (by omega)

theorem largest_power_of_two_lt (m : Nat) (hm : 2 ≤ m) : largest_power_of_two m < m := by
  have := log2F_le (m - 1) (m - 1) (by omega) (Nat.le_refl _)
  unfold largest_power_of_two
  omega

theorem riffle2_evens_odds (a b : Nat) : ∀ (m : Nat) (v : List α),
    v.length = (a + b) * m →
    riffle2 a b m (evens a b m v) (odds a b m v) = v
  | 0, v, h => (List.length_eq_zero.mp (by omega)).symm
  | m + 1, v, h => by
    have h1 : (v.take a).length = a := by
      rw [List.length_take, h, Nat.min_eq_left (by rw [Nat.mul_succ]; omega)]
    have h2 : ((v.drop a).take b).length = b := by
      rw [List.length_take, List.length_drop, h,
        Nat.min_eq_left (by rw [Nat.mul_succ]; omega)]
    have h' : (v.drop (a + b)).length = (a + b) * m := by
      rw [List.length_drop, h, Nat.mul_succ]; omega
    simp only [riffle2, evens, odds]
    rw [take_append_right _ _ h1 (Nat.le_refl a), Nat.sub_self, List.take_zero,
      List.append_nil]
    rw [take_append_right _ _ h2 (Nat.le_refl b), Nat.sub_self, List.take_zero,
      List.append_nil]
    rw [drop_append_right _ _ h1 (Nat.le_refl a), Nat.sub_self, List.drop_zero]
    rw [drop_append_right _ _ h2 (Nat.le_refl b), Nat.sub_self, List.drop_zero]
    rw [riffle2_evens_odds a b m (v.drop (a + b)) h']
    rw [List.append_assoc,
      show v.drop (a + b) = (v.drop a).drop b from (List.drop_drop b a v).symm,
      List.take_append_drop b (v.drop a), List.take_append_drop a v]

/-! ### `shuffle` computes the interleaving -/

/-- The recursion of `shuffle` terminates with fuel `> m`, and on a buffer of
the contract length it interleaves the leading `A`-run (of length `a * m`)
with the trailing `B`-run: `(A0 A1 … ‖ B0 B1 …) ↦ (A0 B0 A1 B1 …)`. -/
theorem shuffleF_eq : ∀ (fuel m : Nat) (v : List α) (a b : Nat), m < fuel →
    v.length = (a + b) * m →
    shuffleF fuel v a b m = some (riffle2 a b m (v.take (a * m)) (v.drop (a * m)))
  | 0, m, _, _, _, hf, _ => absurd hf (Nat.not_lt_zero m)
  | fuel + 1, m, v, a, b, hf, hv => by
    by_cases hm1 : m ≤ 1
    · obtain hm0 | hm1' : m = 0 ∨ m = 1 := by omega
      · subst hm0
        have hnil : v = [] := List.length_eq_zero.mp (by simpa using hv)
        subst hnil
        simp [shuffleF, riffle2]
      · subst hm1'
        have hlen : v.length = a + b := by simpa using hv
        simp only [shuffleF, if_pos (Nat.le_refl 1)]
        rw [Nat.mul_one]
        simp only [riffle2]
        rw [List.take_take, Nat.min_self]
        rw [List.take_of_length_le (by simp [hlen] : (v.drop a).length ≤ b)]
        rw [List.append_nil, List.take_append_drop]
    · have hm2 : 2 ≤ m := by omega
      have hL1 : 1 ≤ largest_power_of_two m := largest_power_of_two_pos m
      have hLm : largest_power_of_two m < m := largest_power_of_two_lt m hm2
      simp only [shuffleF, if_neg hm1]
      set mL := largest_power_of_two m with hmLdef
      set mR := m - mL with hmRdef
      have hR1 : 1 ≤ mR := by omega
      have hRm : mR < m := by omega
      have hm' : m = mL + mR := by omega
      have hXlen : (v.take (a * m)).length = a * m := by
        rw [List.length_take, hv,
          Nat.min_eq_left (Nat.mul_le_mul (by omega) (Nat.le_refl m))]
      have hYlen : (v.drop (a * m)).length = b * m := by
        rw [List.length_drop, hv, Nat.add_mul]; omega
      obtain ⟨X, Y, rfl, hX, hY⟩ :
          ∃ X Y, v = X ++ Y ∧ X.length = a * m ∧ Y.length = b * m :=
        ⟨v.take (a * m), v.drop (a * m), (List.take_append_drop _ _).symm, hXlen, hYlen⟩
      rw [List.take_left' hX, List.drop_left' hX]
      have hPlen : (X.take (a * mL)).length = a * mL := by
        rw [List.length_take, hX,
          Nat.min_eq_left (Nat.mul_le_mul (Nat.le_refl a) (by omega))]
      have hQlen : (Y.take (b * mL)).length = b * mL := by
        rw [List.length_take, hY,
          Nat.min_eq_left (Nat.mul_le_mul (Nat.le_refl b) (by omega))]
      have hRlen : (X.drop (a * mL)).length = a * mR := by
        rw [List.length_drop, hX, hm', Nat.mul_add]; omega
      have hSlen : (Y.drop (b * mL)).length = b * mR := by
        rw [List.length_drop, hY, hm', Nat.mul_add]; omega
      by_cases hg : 0 < a * mR ∧ 0 < b * mL
      · obtain ⟨hga, hgb⟩ := hg
        rw [if_pos ⟨hga, hgb⟩]
        have hdropl : (X ++ Y).drop (a * mL) = X.drop (a * mL) ++ Y :=
          drop_append_left X Y
            (by rw [hX]; exact Nat.mul_le_mul (Nat.le_refl a) (by omega))
        have hseg : ((X ++ Y).drop (a * mL)).take (a * mR + b * mL)
            = X.drop (a * mL) ++ Y.take (b * mL) := by
          rw [hdropl, take_append_right _ _ hRlen (by omega), Nat.add_sub_cancel_left]
        have hexch : exchange (X.drop (a * mL) ++ Y.take (b * mL)) (a * mR) (b * mL)
            = some (Y.take (b * mL) ++ X.drop (a * mL)) := by
          rw [exchange_eq _ _ _ (by rw [List.length_append, hRlen, hQlen])
            (Or.inr ⟨hga, hgb⟩), List.drop_left' hRlen, List.take_left' hRlen]
        rw [hseg, hexch]
        have htk : (X ++ Y).take (a * mL) = X.take (a * mL) :=
          take_append_left X Y
            (by rw [hX]; exact Nat.mul_le_mul (Nat.le_refl a) (by omega))
        have hidx : a * mL + (a * mR + b * mL) = a * m + b * mL := by
          rw [hm', Nat.mul_add]; omega
        have hdr : (X ++ Y).drop (a * mL + (a * mR + b * mL)) = Y.drop (b * mL) := by
          rw [hidx, drop_append_right X Y hX (by omega), Nat.add_sub_cancel_left]
        rw [htk, hdr]
        simp only [Option.map_some', Option.some_bind]
        have hQR : ((Y.take (b * mL) ++ X.drop (a * mL)) ++ Y.drop (b * mL)).length
            = b * mL + (a * mR + b * mR) := by
          simp only [List.length_append, hQlen, hRlen, hSlen]
          omega
        have hab_mL : (a + b) * mL = a * mL + b * mL := Nat.add_mul a b mL
        have htake1 : (X.take (a * mL) ++
              ((Y.take (b * mL) ++ X.drop (a * mL)) ++ Y.drop (b * mL))).take ((a + b) * mL)
            = X.take (a * mL) ++ Y.take (b * mL) := by
          rw [hab_mL, take_append_right _ _ hPlen (by omega), Nat.add_sub_cancel_left]
          rw [take_append_left _ _
            (by rw [List.length_append, hQlen, hRlen]; omega)]
          rw [List.take_left' hQlen]
        have hdrop1 : (X.take (a * mL) ++
              ((Y.take (b * mL) ++ X.drop (a * mL)) ++ Y.drop (b * mL))).drop ((a + b) * mL)
            = X.drop (a * mL) ++ Y.drop (b * mL) := by
          rw [hab_mL, drop_append_right _ _ hPlen (by omega), Nat.add_sub_cancel_left]
          rw [drop_append_left _ _
            (by rw [List.length_append, hQlen, hRlen]; omega)]
          rw [List.drop_left' hQlen]
        rw [htake1, hdrop1]
        rw [shuffleF_eq fuel mL _ a b (by omega)
          (by rw [List.length_append, hPlen, hQlen, Nat.add_mul])]
        rw [List.take_left' hPlen, List.drop_left' hPlen]
        simp only [Option.some_bind]
        rw [shuffleF_eq fuel mR _ a b (by omega)
          (by rw [List.length_append, hRlen, hSlen, Nat.add_mul])]
        rw [List.take_left' hRlen, List.drop_left' hRlen]
        simp only [Option.map_some']
        rw [hm', riffle2_split a b mL mR X Y]
      · rw [if_neg hg]
        simp only [Option.some_bind]
        have hor : a = 0 ∨ b = 0 := by
          by_contra hc
          push_neg at hc
          exact hg ⟨Nat.mul_pos (by omega) hR1, Nat.mul_pos (by omega) hL1⟩
        have hmono : (a + b) * mL ≤ a * m + b * m := by
          rw [← Nat.add_mul]
          exact Nat.mul_le_mul (Nat.le_refl (a + b)) (by omega)
        have htLlen : ((X ++ Y).take ((a + b) * mL)).length = (a + b) * mL := by
          rw [List.length_take, List.length_append, hX, hY, Nat.min_eq_left hmono]
        have htRlen : ((X ++ Y).drop ((a + b) * mL)).length = (a + b) * mR := by
          rw [List.length_drop, List.length_append, hX, hY, ← Nat.add_mul, hm',
            Nat.mul_add]
          omega
        rw [shuffleF_eq fuel mL _ a b (by omega) htLlen]
        simp only [Option.some_bind]
        rw [shuffleF_eq fuel mR _ a b (by omega) htRlen]
        simp only [Option.map_some']
        rcases hor with h0 | h0
        · subst h0
          have hXnil : X = [] := List.length_eq_zero.mp (by simpa using hX)
          subst hXnil
          simp only [List.nil_append, Nat.zero_add, Nat.zero_mul, List.drop_zero,
            List.take_zero]
          rw [riffle2_zero_left b mL _ _ hQlen, riffle2_zero_left b mR _ _ hSlen,
            riffle2_zero_left b m _ _ hY, List.take_append_drop]
        · subst h0
          have hYnil : Y = [] := List.length_eq_zero.mp (by simpa using hY)
          subst hYnil
          simp only [List.append_nil, Nat.add_zero]
          have e1 : (X.take (a * mL)).take (a * mL) = X.take (a * mL) := by
            rw [List.take_take, Nat.min_self]
          have e2 : (X.drop (a * mL)).take (a * mR) = X.drop (a * mL) :=
            List.take_of_length_le (by rw [List.length_drop, hX, hm', Nat.mul_add]; omega)
          rw [e1, e2]
          rw [riffle2_zero_right a mL _ _ hPlen, riffle2_zero_right a mR _ _ hRlen,
            riffle2_zero_right a m _ _ hX, List.take_append_drop]

/-- `shuffle` on a buffer of the contract length: it returns, and the result
is the interleaving of the leading `A`-run with the trailing `B`-run. -/
theorem shuffle_eq (v : List α) (a b m : Nat) (hv : v.length = (a + b) * m) :
    shuffle v a b m = some (riffle2 a b m (v.take (a * m)) (v.drop (a * m))) :=
  shuffleF_eq (m + 1) m v a b (Nat.lt_succ_self m) hv

/-- The recursion of `unshuffle` terminates with fuel `> m`, and on a buffer
of the contract length it de-interleaves the `m` groups into the `A`-run
followed by the `B`-run: `(A0 B0 A1 B1 …) ↦ (A0 A1 … ‖ B0 B1 …)`. -/
theorem unshuffleF_eq : ∀ (fuel m : Nat) (v : List α) (a b : Nat), m < fuel →
    v.length = (a + b) * m →
    unshuffleF fuel v a b m = some (evens a b m v ++ odds a b m v)
  | 0, m, _, _, _, hf, _ => absurd hf (Nat.not_lt_zero m)
  | fuel + 1, m, v, a, b, hf, hv => by
    by_cases hm1 : m ≤ 1
    · obtain hm0 | hm1' : m = 0 ∨ m = 1 := by omega
      · subst hm0
        have hnil : v = [] := List.length_eq_zero.mp (by simpa using hv)
        subst hnil
        simp [unshuffleF, evens, odds]
      · subst hm1'
        have hlen : v.length = a + b := by simpa using hv
        simp only [unshuffleF, if_pos (Nat.le_refl 1)]
        simp only [evens, odds, List.append_nil]
        rw [List.take_of_length_le (by simp [hlen] : (v.drop a).length ≤ b)]
        rw [List.take_append_drop]
    · have hm2 : 2 ≤ m := by omega
      have hL1 : 1 ≤ largest_power_of_two m := largest_power_of_two_pos m
      have hLm : largest_power_of_two m < m := largest_power_of_two_lt m hm2
      simp only [unshuffleF, if_neg hm1]
      set mL := largest_power_of_two m with hmLdef
      set mR := m - mL with hmRdef
      have hR1 : 1 ≤ mR := by omega
      have hRm : mR < m := by omega
      have hm' : m = mL + mR := by omega
      have hmono : (a + b) * mL ≤ (a + b) * m :=
        Nat.mul_le_mul (Nat.le_refl (a + b)) (by omega)
      have htLlen : (v.take ((a + b) * mL)).length = (a + b) * mL := by
        rw [List.length_take, hv, Nat.min_eq_left hmono]
      have htRlen : (v.drop ((a + b) * mL)).length = (a + b) * mR := by
        rw [List.length_drop, hv, hm', Nat.mul_add]; omega
      rw [unshuffleF_eq fuel mL _ a b (by omega) htLlen]
      simp only [Option.some_bind]
      rw [unshuffleF_eq fuel mR _ a b (by omega) htRlen]
      simp only [Option.some_bind]
      have hEL : (evens a b mL (v.take ((a + b) * mL))).length = a * mL :=
        evens_length a b mL _ htLlen
      have hOL : (odds a b mL (v.take ((a + b) * mL))).length = b * mL :=
        odds_length a b mL _ htLlen
      have hER : (evens a b mR (v.drop ((a + b) * mL))).length = a * mR :=
        evens_length a b mR _ htRlen
      have hOR : (odds a b mR (v.drop ((a + b) * mL))).length = b * mR :=
        odds_length a b mR _ htRlen
      by_cases hg : 0 < a * mR ∧ 0 < b * mL
      · rw [if_pos hg]
        obtain ⟨hga, hgb⟩ := hg
        have hELOL : (evens a b mL (v.take ((a + b) * mL)) ++
            odds a b mL (v.take ((a + b) * mL))).length = a * mL + b * mL := by
          rw [List.length_append, hEL, hOL]
        have hdropv1 : ((evens a b mL (v.take ((a + b) * mL)) ++
              odds a b mL (v.take ((a + b) * mL))) ++
              (evens a b mR (v.drop ((a + b) * mL)) ++
                odds a b mR (v.drop ((a + b) * mL)))).drop (a * mL)
            = odds a b mL (v.take ((a + b) * mL)) ++
              (evens a b mR (v.drop ((a + b) * mL)) ++
                odds a b mR (v.drop ((a + b) * mL))) := by
          rw [drop_append_left _ _ (le_of_le_of_eq (by omega : a * mL ≤ a * mL + b * mL)
              hELOL.symm),
            drop_append_left _ _ (le_of_eq hEL.symm),
            List.drop_of_length_le (le_of_eq hEL), List.nil_append]
        have hseg : ((odds a b mL (v.take ((a + b) * mL)) ++
              (evens a b mR (v.drop ((a + b) * mL)) ++
                odds a b mR (v.drop ((a + b) * mL))))).take (b * mL + a * mR)
            = odds a b mL (v.take ((a + b) * mL)) ++
              evens a b mR (v.drop ((a + b) * mL)) := by
          rw [take_append_right _ _ hOL (by omega), Nat.add_sub_cancel_left,
            take_append_left _ _ (le_of_eq hER.symm),
            List.take_of_length_le (le_of_eq hER)]
        have hexch : exchange (odds a b mL (v.take ((a + b) * mL)) ++
              evens a b mR (v.drop ((a + b) * mL))) (b * mL) (a * mR)
            = some (evens a b mR (v.drop ((a + b) * mL)) ++
                odds a b mL (v.take ((a + b) * mL))) := by
          rw [exchange_eq _ _ _ (by rw [List.length_append, hOL, hER])
            (Or.inr ⟨hgb, hga⟩), List.drop_left' hOL, List.take_left' hOL]
        have htake1 : ((evens a b mL (v.take ((a + b) * mL)) ++
              odds a b mL (v.take ((a + b) * mL))) ++
              (evens a b mR (v.drop ((a + b) * mL)) ++
                odds a b mR (v.drop ((a + b) * mL)))).take (a * mL)
            = evens a b mL (v.take ((a + b) * mL)) := by
          rw [take_append_left _ _ (le_of_le_of_eq (by omega : a * mL ≤ a * mL + b * mL)
              hELOL.symm),
            take_append_left _ _ (le_of_eq hEL.symm),
            List.take_of_length_le (le_of_eq hEL)]
        have hdrop2 : ((evens a b mL (v.take ((a + b) * mL)) ++
              odds a b mL (v.take ((a + b) * mL))) ++
              (evens a b mR (v.drop ((a + b) * mL)) ++
                odds a b mR (v.drop ((a + b) * mL)))).drop (a * mL + (b * mL + a * mR))
            = odds a b mR (v.drop ((a + b) * mL)) := by
          rw [drop_append_right _ _ hELOL (by omega)]
          rw [show a * mL + (b * mL + a * mR) - (a * mL + b * mL) = a * mR from by omega]
          rw [drop_append_right _ _ hER (Nat.le_refl _), Nat.sub_self, List.drop_zero]
        rw [hdropv1, hseg, hexch, htake1, hdrop2]
        simp only [Option.map_some']
        rw [hm', evens_split a b mL mR v, odds_split a b mL mR v]
        simp [List.append_assoc]
      · rw [if_neg hg]
        have hor : a = 0 ∨ b = 0 := by
          by_contra hc
          push_neg at hc
          exact hg ⟨Nat.mul_pos (by omega) hR1, Nat.mul_pos (by omega) hL1⟩
        rcases hor with h0 | h0
        · subst h0
          simp only [evens_zero, List.nil_append]
          rw [hm', odds_split 0 b mL mR v]
        · subst h0
          simp only [odds_zero, List.append_nil]
          rw [hm', evens_split a 0 mL mR v]

/-- `unshuffle` on a buffer of the contract length: it returns, and the
result is the `A`-run followed by the `B`-run. -/
theorem unshuffle_eq (v : List α) (a b m : Nat) (hv : v.length = (a + b) * m) :
    unshuffle v a b m = some (evens a b m v ++ odds a b m v) :=
  unshuffleF_eq (m + 1) m v a b (Nat.lt_succ_self m) hv

/-! ### The transpose specification, element-wise -/

theorem transposeSpec_length (v : List α) (rows cols : Nat) :
    (transposeSpec v rows cols).length = rows * cols := by
  simp [transposeSpec]

theorem transposeSpec_getD (v : List α) (rows cols : Nat) (d : α)
    (hv : v.length = rows * cols) {i : Nat} (hi : i < rows * cols) :
    (transposeSpec v rows cols).getD i d
      = v.getD ((i % rows) * cols + i / rows) d := by
  have hrows : 0 < rows := by
    rcases Nat.eq_zero_or_pos rows with h | h
    · subst h; simp at hi
    · exact h
  have h1 : i % rows < rows := Nat.mod_lt _ hrows
  have h2 : i / rows < cols := by
    rw [Nat.div_lt_iff_lt_mul hrows]
    calc i < rows * cols := hi
    _ = cols * rows := Nat.mul_comm rows cols
  have hidx : (i % rows) * cols + i / rows < rows * cols :=
    calc (i % rows) * cols + i / rows
        < (i % rows) * cols + cols := by omega
      _ = (i % rows + 1) * cols := (Nat.succ_mul _ _).symm
      _ ≤ rows * cols := Nat.mul_le_mul (by omega) (Nat.le_refl cols)
  simp only [transposeSpec]
  rw [getD_rangeMap _ _ hi]
  exact getD_irrel v default d (by rw [hv]; exact hidx)

theorem rangeMap_getD_self (v : List α) (d : α) :
    (List.range v.length).map (fun i => v.getD i d) = v := by
  apply List.ext_getElem (by simp)
  intro n h1 h2
  rw [List.getElem_map, List.getElem_range, List.getD_eq_getElem v d h2]

/-- Transposing a single row (or, below, a single column) leaves the buffer
unchanged. -/
theorem transposeSpec_one_row (v : List α) (cols : Nat) (hv : v.length = cols) :
    transposeSpec v 1 cols = v := by
  simp only [transposeSpec, Nat.mod_one, Nat.div_one, Nat.zero_mul, Nat.zero_add,
    Nat.one_mul]
  rw [← hv]
  exact rangeMap_getD_self v default

theorem transposeSpec_one_col (v : List α) (rows : Nat) (hv : v.length = rows) :
    transposeSpec v rows 1 = v := by
  apply List.ext_getElem (by simp [transposeSpec_length, hv])
  intro n h1 h2
  have hn : n < rows := by
    have := transposeSpec_length v rows 1
    omega
  rw [← List.getD_eq_getElem _ default h1, ← List.getD_eq_getElem _ default h2,
    transposeSpec_getD v rows 1 default (by omega) (by omega : n < rows * 1)]
  rw [Nat.mod_eq_of_lt hn, Nat.div_eq_of_lt hn, Nat.mul_one, Nat.add_zero]

theorem transposeSpec_zero_rows (v : List α) (cols : Nat) :
    transposeSpec v 0 cols = [] := by
  simp [transposeSpec]

theorem transposeSpec_zero_cols (v : List α) (rows : Nat) :
    transposeSpec v rows 0 = [] := by
  simp [transposeSpec]

/-! ### Element-wise views of the interleaving patterns -/

theorem riffle2_getD_left (a b : Nat) (d : α) : ∀ (m : Nat) (xs ys : List α)
    (i t : Nat), xs.length = a * m → ys.length = b * m → i < m → t < a →
    (riffle2 a b m xs ys).getD (i * (a + b) + t) d = xs.getD (i * a + t) d
  | 0, _, _, i, _, _, _, hi, _ => absurd hi (Nat.not_lt_zero i)
  | m + 1, xs, ys, i, t, hx, hy, hi, ht => by
    have h1 : (xs.take a).length = a := by
      rw [List.length_take, hx, Nat.min_eq_left (by rw [Nat.mul_succ]; omega)]
    have h2 : (ys.take b).length = b := by
      rw [List.length_take, hy, Nat.min_eq_left (by rw [Nat.mul_succ]; omega)]
    simp only [riffle2]
    cases i with
    | zero =>
      rw [Nat.zero_mul, Nat.zero_add, Nat.zero_mul, Nat.zero_add]
      rw [getD_append_left _ _ _ (by rw [List.length_append, h1, h2]; omega)]
      rw [getD_append_left _ _ _ (by rw [h1]; exact ht)]
      exact getD_take xs d ht
    | succ i =>
      have hidx : (i + 1) * (a + b) + t = (a + b) + (i * (a + b) + t) := by
        rw [Nat.succ_mul]; omega
      rw [hidx, getD_append_right _ _ _ (by rw [List.length_append, h1, h2]; omega)]
      rw [show (a + b) + (i * (a + b) + t) - (xs.take a ++ ys.take b).length
          = i * (a + b) + t from by rw [List.length_append, h1, h2]; omega]
      rw [riffle2_getD_left a b d m (xs.drop a) (ys.drop b) i t
        (by rw [List.length_drop, hx, Nat.mul_succ]; omega)
        (by rw [List.length_drop, hy, Nat.mul_succ]; omega)
        (by omega) ht]
      rw [getD_drop]
      congr 1
      rw [Nat.succ_mul]
      omega

theorem riffle2_getD_right (a b : Nat) (d : α) : ∀ (m : Nat) (xs ys : List α)
    (i t : Nat), xs.length = a * m → ys.length = b * m → i < m → t < b →
    (riffle2 a b m xs ys).getD (i * (a + b) + a + t) d = ys.getD (i * b + t) d
  | 0, _, _, i, _, _, _, hi, _ => absurd hi (Nat.not_lt_zero i)
  | m + 1, xs, ys, i, t, hx, hy, hi, ht => by
    have h1 : (xs.take a).length = a := by
      rw [List.length_take, hx, Nat.min_eq_left (by rw [Nat.mul_succ]; omega)]
    have h2 : (ys.take b).length = b := by
      rw [List.length_take, hy, Nat.min_eq_left (by rw [Nat.mul_succ]; omega)]
    simp only [riffle2]
    cases i with
    | zero =>
      rw [Nat.zero_mul, Nat.zero_add, Nat.zero_mul, Nat.zero_add]
      rw [getD_append_left _ _ _ (by rw [List.length_append, h1, h2]; omega)]
      rw [getD_append_right _ _ _ (by rw [h1]; omega)]
      rw [show a + t - (xs.take a).length = t from by rw [h1]; omega]
      exact getD_take ys d ht
    | succ i =>
      have hidx : (i + 1) * (a + b) + a + t = (a + b) + (i * (a + b) + a + t) := by
        rw [Nat.succ_mul]; omega
      rw [hidx, getD_append_right _ _ _ (by rw [List.length_append, h1, h2]; omega)]
      rw [show (a + b) + (i * (a + b) + a + t) - (xs.take a ++ ys.take b).length
          = i * (a + b) + a + t from by rw [List.length_append, h1, h2]; omega]
      rw [riffle2_getD_right a b d m (xs.drop a) (ys.drop b) i t
        (by rw [List.length_drop, hx, Nat.mul_succ]; omega)
        (by rw [List.length_drop, hy, Nat.mul_succ]; omega)
        (by omega) ht]
      rw [getD_drop]
      congr 1
      rw [Nat.succ_mul]
      omega

theorem evens_getD (a b : Nat) (d : α) : ∀ (m : Nat) (v : List α) (i t : Nat),
    v.length = (a + b) * m → i < m → t < a →
    (evens a b m v).getD (i * a + t) d = v.getD (i * (a + b) + t) d
  | 0, _, i, _, _, hi, _ => absurd hi (Nat.not_lt_zero i)
  | m + 1, v, i, t, hv, hi, ht => by
    have h1 : (v.take a).length = a := by
      rw [List.length_take, hv, Nat.min_eq_left (by rw [Nat.mul_succ]; omega)]
    simp only [evens]
    cases i with
    | zero =>
      rw [Nat.zero_mul, Nat.zero_add, Nat.zero_mul, Nat.zero_add]
      rw [getD_append_left _ _ _ (by rw [h1]; exact ht)]
      exact getD_take v d ht
    | succ i =>
      have hidx : (i + 1) * a + t = a + (i * a + t) := by rw [Nat.succ_mul]; omega
      rw [hidx, getD_append_right _ _ _ (by rw [h1]; omega)]
      rw [show a + (i * a + t) - (v.take a).length = i * a + t from by rw [h1]; omega]
      rw [evens_getD a b d m (v.drop (a + b)) i t
        (by rw [List.length_drop, hv, Nat.mul_succ]; omega) (by omega) ht]
      rw [getD_drop]
      congr 1
      rw [Nat.succ_mul]
      omega

theorem odds_getD (a b : Nat) (d : α) : ∀ (m : Nat) (v : List α) (i t : Nat),
    v.length = (a + b) * m → i < m → t < b →
    (odds a b m v).getD (i * b + t) d = v.getD (i * (a + b) + a + t) d
  | 0, _, i, _, _, hi, _ => absurd hi (Nat.not_lt_zero i)
  | m + 1, v, i, t, hv, hi, ht => by
    have h2 : ((v.drop a).take b).length = b := by
      rw [List.length_take, List.length_drop, hv,
        Nat.min_eq_left (by rw [Nat.mul_succ]; omega)]
    simp only [odds]
    cases i with
    | zero =>
      rw [Nat.zero_mul, Nat.zero_add, Nat.zero_mul, Nat.zero_add]
      rw [getD_append_left _ _ _ (by rw [h2]; exact ht)]
      rw [getD_take _ d ht, getD_drop]
    | succ i =>
      have hidx : (i + 1) * b + t = b + (i * b + t) := by rw [Nat.succ_mul]; omega
      rw [hidx, getD_append_right _ _ _ (by rw [h2]; omega)]
      rw [show b + (i * b + t) - ((v.drop a).take b).length = i * b + t from
        by rw [h2]; omega]
      rw [odds_getD a b d m (v.drop (a + b)) i t
        (by rw [List.length_drop, hv, Nat.mul_succ]; omega) (by omega) ht]
      rw [getD_drop]
      congr 1
      rw [Nat.succ_mul]
      omega

/-! ### Merging and splitting transposes -/

/-- Interleaving the transposes of a `p × n` matrix and a `q × n` matrix row
by row yields the transpose of the vertically stacked `(p+q) × n` matrix.
This is the merge step shared by `transpose_join` and the tall path of
`transpose`. -/
theorem riffle2_transposeSpec (X Y : List α) (p q n : Nat)
    (hX : X.length = p * n) (hY : Y.length = q * n) :
    riffle2 p q n (transposeSpec X p n) (transposeSpec Y q n)
      = transposeSpec (X ++ Y) (p + q) n := by
  apply List.ext_getElem
  · rw [riffle2_length p q n _ _ (transposeSpec_length X p n)
      (transposeSpec_length Y q n), transposeSpec_length]
  intro idx h1 h2
  have h1' : idx < (p + q) * n := by
    have := riffle2_length p q n (transposeSpec X p n) (transposeSpec Y q n)
      (transposeSpec_length X p n) (transposeSpec_length Y q n)
    omega
  have hpq : 0 < p + q := by
    rcases Nat.eq_zero_or_pos (p + q) with h | h
    · rw [h, Nat.zero_mul] at h1'; omega
    · exact h
  have hXY : (X ++ Y).length = (p + q) * n := by
    rw [List.length_append, hX, hY, Nat.add_mul]
  have ht : idx % (p + q) < p + q := Nat.mod_lt idx hpq
  have hi : idx / (p + q) < n := by
    rw [Nat.div_lt_iff_lt_mul hpq]
    calc idx < (p + q) * n := h1'
    _ = n * (p + q) := Nat.mul_comm _ _
  have hidx : idx = (idx / (p + q)) * (p + q) + idx % (p + q) := by
    rw [Nat.mul_comm]
    exact (Nat.div_add_mod idx (p + q)).symm
  rw [← List.getD_eq_getElem _ default h1, ← List.getD_eq_getElem _ default h2]
  by_cases htp : idx % (p + q) < p
  · have hp0 : 0 < p := by omega
    have hmod : (idx / (p + q) * p + idx % (p + q)) % p = idx % (p + q) := by
      rw [Nat.mul_comm, Nat.mul_add_mod, Nat.mod_eq_of_lt htp]
    have hdiv : (idx / (p + q) * p + idx % (p + q)) / p = idx / (p + q) := by
      rw [Nat.mul_comm, Nat.mul_add_div hp0, Nat.div_eq_of_lt htp, Nat.add_zero]
    have hsmall : idx / (p + q) * p + idx % (p + q) < p * n :=
      calc idx / (p + q) * p + idx % (p + q)
          < idx / (p + q) * p + p := by omega
        _ = (idx / (p + q) + 1) * p := (Nat.succ_mul _ _).symm
        _ ≤ n * p := Nat.mul_le_mul (by omega) (Nat.le_refl p)
        _ = p * n := Nat.mul_comm n p
    conv_lhs => rw [hidx]
    rw [riffle2_getD_left p q default n _ _ _ _ (transposeSpec_length X p n)
      (transposeSpec_length Y q n) hi htp]
    rw [transposeSpec_getD X p n default hX hsmall, hmod, hdiv]
    rw [transposeSpec_getD (X ++ Y) (p + q) n default hXY h1']
    have hXside : idx % (p + q) * n + idx / (p + q) < p * n :=
      calc idx % (p + q) * n + idx / (p + q)
          < idx % (p + q) * n + n := by omega
        _ = (idx % (p + q) + 1) * n := (Nat.succ_mul _ _).symm
        _ ≤ p * n := Nat.mul_le_mul (by omega) (Nat.le_refl n)
    rw [getD_append_left _ _ _ (by rw [hX]; exact hXside)]
  · have hq0 : 0 < q := by omega
    have ht' : idx % (p + q) - p < q := by omega
    have hmod : (idx / (p + q) * q + (idx % (p + q) - p)) % q = idx % (p + q) - p := by
      rw [Nat.mul_comm, Nat.mul_add_mod, Nat.mod_eq_of_lt ht']
    have hdiv : (idx / (p + q) * q + (idx % (p + q) - p)) / q = idx / (p + q) := by
      rw [Nat.mul_comm, Nat.mul_add_div hq0, Nat.div_eq_of_lt ht', Nat.add_zero]
    have hsmall : idx / (p + q) * q + (idx % (p + q) - p) < q * n :=
      calc idx / (p + q) * q + (idx % (p + q) - p)
          < idx / (p + q) * q + q := by omega
        _ = (idx / (p + q) + 1) * q := (Nat.succ_mul _ _).symm
        _ ≤ n * q := Nat.mul_le_mul (by omega) (Nat.le_refl q)
        _ = q * n := Nat.mul_comm n q
    have hidx' : idx = (idx / (p + q)) * (p + q) + p + (idx % (p + q) - p) := by
      omega
    conv_lhs => rw [hidx']
    rw [riffle2_getD_right p q default n _ _ _ _ (transposeSpec_length X p n)
      (transposeSpec_length Y q n) hi ht']
    rw [transposeSpec_getD Y q n default hY hsmall, hmod, hdiv]
    rw [transposeSpec_getD (X ++ Y) (p + q) n default hXY h1']
    have hge : p * n ≤ idx % (p + q) * n + idx / (p + q) :=
      Nat.le_trans (Nat.mul_le_mul (by omega : p ≤ idx % (p + q)) (Nat.le_refl n))
        (Nat.le_add_right _ _)
    rw [getD_append_right _ _ _ (by rw [hX]; exact hge)]
    congr 1
    rw [hX]
    have hexp : idx % (p + q) * n = p * n + (idx % (p + q) - p) * n := by
      rw [← Nat.add_mul]
      congr 1
      omega
    omega

/-- Transposing the left `p` columns and the right `q` columns of an
`n × (p+q)` matrix separately, and concatenating, yields the transpose of
the whole matrix.  The two column blocks are exactly `evens` and `odds` of
the row-major buffer.  This is the split step shared by
`partition_transpose` and the wide path of `transpose`. -/
theorem evens_odds_transposeSpec (Z : List α) (p q n : Nat)
    (hZ : Z.length = (p + q) * n) :
    transposeSpec (evens p q n Z) n p ++ transposeSpec (odds p q n Z) n q
      = transposeSpec Z n (p + q) := by
  have hZ' : Z.length = (p + q) * n := hZ
  have hE : (evens p q n Z).length = p * n := evens_length p q n Z hZ
  have hO : (odds p q n Z).length = q * n := odds_length p q n Z hZ
  apply List.ext_getElem
  · rw [List.length_append, transposeSpec_length, transposeSpec_length,
      transposeSpec_length, ← Nat.mul_add]
  intro idx h1 h2
  have h1' : idx < n * p + n * q := by
    have e := List.length_append (transposeSpec (evens p q n Z) n p)
      (transposeSpec (odds p q n Z) n q)
    rw [transposeSpec_length, transposeSpec_length] at e
    omega
  have hn : 0 < n := by
    rcases Nat.eq_zero_or_pos n with h | h
    · subst h; simp at h1'
    · exact h
  rw [← List.getD_eq_getElem _ default h1, ← List.getD_eq_getElem _ default h2]
  rw [transposeSpec_getD Z n (p + q) default (by rw [hZ, Nat.mul_comm])
    (by rw [Nat.mul_add]; omega : idx < n * (p + q))]
  by_cases hip : idx < n * p
  · have hc : idx / n < p := by
      rw [Nat.div_lt_iff_lt_mul hn]
      calc idx < n * p := hip
      _ = p * n := Nat.mul_comm n p
    have hj : idx % n < n := Nat.mod_lt idx hn
    rw [getD_append_left _ _ _ (by rw [transposeSpec_length]; exact hip)]
    rw [transposeSpec_getD (evens p q n Z) n p default (by rw [hE, Nat.mul_comm]) hip]
    rw [evens_getD p q default n Z (idx % n) (idx / n) hZ hj hc]
  · have hidx2 : idx - n * p < n * q := by omega
    have hc' : (idx - n * p) / n < q := by
      rw [Nat.div_lt_iff_lt_mul hn]
      calc idx - n * p < n * q := hidx2
      _ = q * n := Nat.mul_comm n q
    have hj' : (idx - n * p) % n < n := Nat.mod_lt _ hn
    rw [getD_append_right _ _ _ (by rw [transposeSpec_length]; omega)]
    rw [transposeSpec_length]
    rw [transposeSpec_getD (odds p q n Z) n q default (by rw [hO, Nat.mul_comm]) hidx2]
    rw [odds_getD p q default n Z ((idx - n * p) % n) ((idx - n * p) / n) hZ hj' hc']
    congr 1
    have e1 : idx % n = (idx - n * p) % n := by
      conv_lhs => rw [show idx = n * p + (idx - n * p) from by omega]
      rw [Nat.mul_add_mod]
    have e2 : idx / n = p + (idx - n * p) / n := by
      conv_lhs => rw [show idx = n * p + (idx - n * p) from by omega]
      rw [Nat.mul_add_div hn]
    rw [e1, e2]
    omega

/-! ### Correctness of `transpose_join` and `partition_transpose` -/

/-- `transpose_join` on `k ≥ 1` blocks of `n × n` terminates (with fuel
`≥ k`) and produces the row-major transpose of the `(k·n) × n` matrix formed
by the stacked blocks. -/
theorem transpose_joinF_eq : ∀ (fuel k : Nat) (v : List α) (n : Nat), 1 ≤ k →
    k ≤ fuel → v.length = k * n * n →
    transpose_joinF fuel v k n = some (transposeSpec v (k * n) n)
  | 0, k, _, _, hk, hf, _ => by omega
  | fuel + 1, k, v, n, hk, hf, hv => by
    by_cases hk1 : k = 1
    · subst hk1
      simp only [transpose_joinF, square_transpose, eq_self_iff_true, if_true]
      rw [Nat.one_mul]
    · have hk2 : 2 ≤ k := by omega
      have hT1 : 1 ≤ k / 2 := by omega
      have hTk : k / 2 < k := by omega
      have hB1 : 1 ≤ k - k / 2 := by omega
      have hBk : k - k / 2 < k := by omega
      have hksplit : k = k / 2 + (k - k / 2) := by omega
      simp only [transpose_joinF, if_neg hk1]
      have htoplen : (v.take (k / 2 * n * n)).length = k / 2 * n * n := by
        rw [List.length_take, hv, Nat.min_eq_left
          (Nat.mul_le_mul (Nat.mul_le_mul (by omega) (Nat.le_refl n)) (Nat.le_refl n))]
      have hbotlen : (v.drop (k / 2 * n * n)).length = (k - k / 2) * n * n := by
        rw [List.length_drop, hv]
        have : k * n * n = k / 2 * n * n + (k - k / 2) * n * n := by
          rw [← Nat.add_mul, ← Nat.add_mul, ← hksplit]
        omega
      rw [transpose_joinF_eq fuel (k / 2) _ n hT1 (by omega) htoplen]
      simp only [Option.some_bind]
      rw [transpose_joinF_eq fuel (k - k / 2) _ n hB1 (by omega) hbotlen]
      simp only [Option.some_bind]
      rw [shuffle_eq _ _ _ _ (by
        rw [List.length_append, transposeSpec_length, transposeSpec_length,
          ← Nat.add_mul])]
      rw [take_append_left _ _ (le_of_eq (transposeSpec_length _ _ _).symm),
        List.take_of_length_le (le_of_eq (transposeSpec_length _ _ _))]
      rw [drop_append_right _ _ (transposeSpec_length _ _ _) (Nat.le_refl _),
        Nat.sub_self, List.drop_zero]
      rw [riffle2_transposeSpec _ _ (k / 2 * n) ((k - k / 2) * n) n htoplen hbotlen]
      rw [List.take_append_drop, ← Nat.add_mul, ← hksplit]

/-- `transpose_join` at the wrapper fuel. -/
theorem transpose_join_eq (v : List α) (k n : Nat) (hk : 1 ≤ k)
    (hv : v.length = k * n * n) :
    transpose_join v k n = some (transposeSpec v (k * n) n) :=
  transpose_joinF_eq (k + 1) k v n hk (by omega) hv

/-- `partition_transpose` on an `n × (k·n)` matrix terminates (with fuel
`≥ k`) and produces the `k` consecutive transposed column strips — the
row-major transpose of the matrix. -/
theorem partition_transposeF_eq : ∀ (fuel k : Nat) (v : List α) (n : Nat), 1 ≤ k →
    k ≤ fuel → v.length = k * n * n →
    partition_transposeF fuel v k n = some (transposeSpec v n (k * n))
  | 0, k, _, _, hk, hf, _ => by omega
  | fuel + 1, k, v, n, hk, hf, hv => by
    by_cases hk1 : k = 1
    · subst hk1
      simp only [partition_transposeF, square_transpose, eq_self_iff_true, if_true]
      rw [Nat.one_mul]
    · have hk2 : 2 ≤ k := by omega
      have hT1 : 1 ≤ k / 2 := by omega
      have hB1 : 1 ≤ k - k / 2 := by omega
      have hksplit : k = k / 2 + (k - k / 2) := by omega
      simp only [partition_transposeF, if_neg hk1]
      have hvsplit : v.length = (k / 2 * n + (k - k / 2) * n) * n := by
        rw [hv, ← Nat.add_mul, ← hksplit]
      rw [unshuffle_eq v (k / 2 * n) ((k - k / 2) * n) n hvsplit]
      simp only [Option.some_bind]
      have hElen : (evens (k / 2 * n) ((k - k / 2) * n) n v).length = k / 2 * n * n :=
        evens_length _ _ _ _ hvsplit
      have hOlen : (odds (k / 2 * n) ((k - k / 2) * n) n v).length = (k - k / 2) * n * n :=
        odds_length _ _ _ _ hvsplit
      rw [List.take_left' hElen, drop_append_right _ _ hElen (Nat.le_refl _),
        Nat.sub_self, List.drop_zero]
      rw [partition_transposeF_eq fuel (k / 2) _ n hT1 (by omega) hElen]
      simp only [Option.some_bind]
      rw [partition_transposeF_eq fuel (k - k / 2) _ n hB1 (by omega) hOlen]
      simp only [Option.map_some']
      rw [evens_odds_transposeSpec v (k / 2 * n) ((k - k / 2) * n) n hvsplit]
      rw [← Nat.add_mul, ← hksplit]

/-- `partition_transpose` at the wrapper fuel. -/
theorem partition_transpose_eq (v : List α) (k n : Nat) (hk : 1 ≤ k)
    (hv : v.length = k * n * n) :
    partition_transpose v k n = some (transposeSpec v n (k * n)) :=
  partition_transposeF_eq (k + 1) k v n hk (by omega) hv

/-! ### Correctness of the top-level `transpose` -/

/-- The dispatcher terminates (with fuel `> rows * cols`) on every buffer of
the contract length and produces the row-major transpose, for every value of
`COPY_THRESHOLD`. -/
theorem transposeF_eq : ∀ (copyT fuel : Nat) (v : List α) (rows cols : Nat),
    rows * cols < fuel → v.length = rows * cols →
    transposeF copyT fuel v rows cols = some (transposeSpec v rows cols)
  | _, 0, _, _, _, hf, _ => absurd hf (Nat.not_lt_zero _)
  | copyT, fuel + 1, v, rows, cols, hf, hv => by
    by_cases htriv : rows ≤ 1 ∨ cols ≤ 1
    · simp only [transposeF]
      rw [if_pos htriv]
      have hident : transposeSpec v rows cols = v := by
        rcases htriv with h | h
        · interval_cases rows
          · have hnil : v = [] := List.length_eq_zero.mp (by simpa using hv)
            subst hnil
            rw [transposeSpec_zero_rows]
          · exact transposeSpec_one_row v cols (by simpa using hv)
        · interval_cases cols
          · have hnil : v = [] := List.length_eq_zero.mp (by simpa using hv)
            subst hnil
            rw [transposeSpec_zero_cols]
          · exact transposeSpec_one_col v rows (by simpa using hv)
      rw [hident]
    · push_neg at htriv
      obtain ⟨hr2, hc2⟩ := htriv
      simp only [transposeF]
      rw [if_neg (by omega : ¬(rows ≤ 1 ∨ cols ≤ 1))]
      by_cases heq : rows = cols
      · rw [if_pos heq]
        subst heq
        rfl
      · rw [if_neg heq]
        by_cases hcopy : rows * cols ≤ copyT
        · rw [if_pos hcopy]
          rfl
        · rw [if_neg hcopy]
          by_cases htall : cols < rows
          · rw [if_pos htall]
            have hc0 : 0 < cols := by omega
            set sq := rows / cols with hsqdef
            set rem := rows % cols with hremdef
            have hsq1 : 1 ≤ sq := (Nat.one_le_div_iff hc0).mpr (by omega)
            have hrc : sq * cols + rem = rows := by
              rw [Nat.mul_comm]
              exact Nat.div_add_mod rows cols
            have hrem_lt : rem < cols := Nat.mod_lt rows hc0
            by_cases hrem : rem = 0
            · rw [if_pos hrem]
              have hrow : rows = sq * cols := by omega
              have hlen : v.length = sq * cols * cols := by rw [hv, hrow]
              rw [transpose_join_eq v sq cols hsq1 hlen, ← hrow]
            · rw [if_neg hrem]
              have hsplitrow : rows = sq * cols + rem := by omega
              have hsplit : rows * cols = sq * cols * cols + rem * cols := by
                rw [hsplitrow, Nat.add_mul]
              have hheadlen : (v.take (sq * cols * cols)).length = sq * cols * cols := by
                rw [List.length_take, hv, Nat.min_eq_left (by omega)]
              have htaillen : (v.drop (sq * cols * cols)).length = rem * cols := by
                rw [List.length_drop, hv]
                omega
              rw [transpose_join_eq (v.take (sq * cols * cols)) sq cols hsq1 hheadlen]
              simp only [Option.some_bind]
              have hfuel2 : rem * cols < fuel := by
                have : rem * cols < rows * cols :=
                  (Nat.mul_lt_mul_right hc0).mpr (by omega)
                omega
              rw [transposeF_eq copyT fuel _ rem cols hfuel2 htaillen]
              simp only [Option.some_bind]
              rw [shuffle_eq _ _ _ _ (by
                rw [List.length_append, transposeSpec_length, transposeSpec_length,
                  ← Nat.add_mul])]
              rw [take_append_left _ _ (le_of_eq (transposeSpec_length _ _ _).symm),
                List.take_of_length_le (le_of_eq (transposeSpec_length _ _ _))]
              rw [drop_append_right _ _ (transposeSpec_length _ _ _) (Nat.le_refl _),
                Nat.sub_self, List.drop_zero]
              rw [riffle2_transposeSpec _ _ (sq * cols) rem cols hheadlen htaillen]
              rw [List.take_append_drop, ← hsplitrow]
          · rw [if_neg htall]
            have hr0 : 0 < rows := by omega
            have hwide : rows < cols := by omega
            set sq := cols / rows with hsqdef
            set rem := cols % rows with hremdef
            have hsq1 : 1 ≤ sq := (Nat.one_le_div_iff hr0).mpr (by omega)
            have hrc : sq * rows + rem = cols := by
              rw [Nat.mul_comm]
              exact Nat.div_add_mod cols rows
            have hrem_lt : rem < rows := Nat.mod_lt cols hr0
            by_cases hrem : rem = 0
            · rw [if_pos hrem]
              have hcol : cols = sq * rows := by omega
              have hlen : v.length = sq * rows * rows := by
                rw [hv, hcol, Nat.mul_comm rows (sq * rows)]
              rw [partition_transpose_eq v sq rows hsq1 hlen, ← hcol]
            · rw [if_neg hrem]
              have hcolsplit : cols = sq * rows + rem := by omega
              have hvsplit : v.length = (sq * rows + rem) * rows := by
                rw [hv, hcolsplit, Nat.mul_comm rows (sq * rows + rem)]
              rw [unshuffle_eq v (sq * rows) rem rows hvsplit]
              simp only [Option.some_bind]
              have hE : (evens (sq * rows) rem rows v).length = sq * rows * rows :=
                evens_length _ _ _ _ hvsplit
              have hO : (odds (sq * rows) rem rows v).length = rem * rows :=
                odds_length _ _ _ _ hvsplit
              rw [List.take_left' hE, drop_append_right _ _ hE (Nat.le_refl _),
                Nat.sub_self, List.drop_zero]
              rw [partition_transpose_eq _ sq rows hsq1 hE]
              simp only [Option.some_bind]
              have hfuel2 : rows * rem < fuel := by
                have : rows * rem < rows * cols :=
                  (Nat.mul_lt_mul_left hr0).mpr (by omega)
                omega
              rw [transposeF_eq copyT fuel _ rows rem hfuel2
                (by rw [hO, Nat.mul_comm])]
              simp only [Option.map_some']
              rw [evens_odds_transposeSpec v (sq * rows) rem rows hvsplit]
              rw [← hcolsplit]

/-- Top-level `transpose` on a valid input: the length assertion passes and
the result is the row-major transpose. -/
theorem transpose_eq (v : List α) (rows cols : Nat) (h64 : rows * cols < 2 ^ 64)
    (hv : v.length = rows * cols) :
    transpose v rows cols = some (transposeSpec v rows cols) := by
  rw [transpose, if_pos (by rw [hv, usizeWrap, Nat.mod_eq_of_lt h64])]
  exact transposeF_eq (1 <<< 14) (rows * cols + 1) v rows cols (Nat.lt_succ_self _) hv

/-! ### The operations permute their input -/

theorem perm_middle_swap (A B C D : List α) :
    ((A ++ B) ++ (C ++ D)).Perm ((A ++ C) ++ (B ++ D)) := by
  have h1 : (A ++ B) ++ (C ++ D) = A ++ ((B ++ C) ++ D) := by
    simp [List.append_assoc]
  have h2 : (A ++ C) ++ (B ++ D) = A ++ ((C ++ B) ++ D) := by
    simp [List.append_assoc]
  rw [h1, h2]
  exact List.Perm.append_left A (List.Perm.append_right D List.perm_append_comm)

theorem riffle2_perm (a b : Nat) : ∀ (m : Nat) (xs ys : List α),
    xs.length = a * m → ys.length = b * m →
    (riffle2 a b m xs ys).Perm (xs ++ ys)
  | 0, xs, ys, hx, hy => by
    have hx' : xs = [] := List.length_eq_zero.mp (by omega)
    have hy' : ys = [] := List.length_eq_zero.mp (by omega)
    subst hx'
    subst hy'
    simp [riffle2]
  | m + 1, xs, ys, hx, hy => by
    simp only [riffle2]
    have IH := riffle2_perm a b m (xs.drop a) (ys.drop b)
      (by rw [List.length_drop, hx, Nat.mul_succ]; omega)
      (by rw [List.length_drop, hy, Nat.mul_succ]; omega)
    have h1 : ((xs.take a ++ ys.take b) ++ riffle2 a b m (xs.drop a) (ys.drop b)).Perm
        ((xs.take a ++ ys.take b) ++ (xs.drop a ++ ys.drop b)) :=
      List.Perm.append_left _ IH
    have h2 := perm_middle_swap (xs.take a) (ys.take b) (xs.drop a) (ys.drop b)
    have h3 : (xs.take a ++ xs.drop a) ++ (ys.take b ++ ys.drop b) = xs ++ ys := by
      rw [List.take_append_drop, List.take_append_drop]
    have h := h1.trans h2
    rw [h3] at h
    exact h

theorem transposeSpec_perm : ∀ (p : Nat) (v : List α) (n : Nat),
    v.length = p * n → (transposeSpec v p n).Perm v
  | 0, v, n, hv => by
    have hnil : v = [] := List.length_eq_zero.mp (by omega)
    subst hnil
    rw [transposeSpec_zero_rows]
  | p + 1, v, n, hv => by
    have hX : (v.take (p * n)).length = p * n := by
      rw [List.length_take, hv, Nat.min_eq_left (by rw [Nat.succ_mul]; omega)]
    have hY : (v.drop (p * n)).length = n := by
      rw [List.length_drop, hv, Nat.succ_mul]; omega
    have step1 : transposeSpec v (p + 1) n
        = riffle2 p 1 n (transposeSpec (v.take (p * n)) p n)
            (transposeSpec (v.drop (p * n)) 1 n) := by
      conv_lhs => rw [← List.take_append_drop (p * n) v]
      exact (riffle2_transposeSpec _ _ p 1 n hX (by rw [hY, Nat.one_mul])).symm
    rw [step1]
    have h2 : (riffle2 p 1 n (transposeSpec (v.take (p * n)) p n)
        (transposeSpec (v.drop (p * n)) 1 n)).Perm
        (transposeSpec (v.take (p * n)) p n ++ transposeSpec (v.drop (p * n)) 1 n) :=
      riffle2_perm p 1 n _ _ (transposeSpec_length _ _ _) (transposeSpec_length _ _ _)
    have h3 : (transposeSpec (v.take (p * n)) p n ++
        transposeSpec (v.drop (p * n)) 1 n).Perm (v.take (p * n) ++ v.drop (p * n)) := by
      rw [transposeSpec_one_row (v.drop (p * n)) n hY]
      exact List.Perm.append (transposeSpec_perm p _ n hX) (List.Perm.refl _)
    have h4 : v.take (p * n) ++ v.drop (p * n) = v := List.take_append_drop _ _
    have h := h2.trans h3
    rw [h4] at h
    exact h

theorem unriffle_perm (v : List α) (a b m : Nat) (hv : v.length = (a + b) * m) :
    (evens a b m v ++ odds a b m v).Perm v := by
  have h := riffle2_perm a b m (evens a b m v) (odds a b m v)
    (evens_length a b m v hv) (odds_length a b m v hv)
  rw [riffle2_evens_odds a b m v hv] at h
  exact h.symm

/-- The defining entry-wise property of the row-major transpose. -/
theorem transposeSpec_entry (v : List α) (rows cols : Nat) (d : α)
    (hv : v.length = rows * cols) {i j : Nat} (hi : i < rows) (hj : j < cols) :
    (transposeSpec v rows cols).getD (j * rows + i) d = v.getD (i * cols + j) d := by
  have hidx : j * rows + i < rows * cols :=
    calc j * rows + i < j * rows + rows := by omega
      _ = (j + 1) * rows := (Nat.succ_mul _ _).symm
      _ ≤ cols * rows := Nat.mul_le_mul (by omega) (Nat.le_refl rows)
      _ = rows * cols := Nat.mul_comm _ _
  rw [transposeSpec_getD v rows cols d hv hidx]
  have hmod : (j * rows + i) % rows = i := by
    rw [Nat.mul_comm, Nat.mul_add_mod, Nat.mod_eq_of_lt hi]
  have hdiv : (j * rows + i) / rows = j := by
    rw [Nat.mul_comm, Nat.mul_add_div (by omega), Nat.div_eq_of_lt hi, Nat.add_zero]
  rw [hmod, hdiv]

/-! ### The claims -/

/-- C1: for every rows ≥ 1, cols ≥ 1 and every buffer V with
|V| = rows·cols (a usize, so the product does not overflow),
transpose(V, (rows, cols)) terminates and on return V[j·rows + i] equals the
old V[i·cols + j] for all 0 ≤ i < rows, 0 ≤ j < cols — equivalently, it
produces the same buffer as the copy_transpose oracle on every such
input. -/
theorem claim_C1 (v : List α) (rows cols : Nat) (d : α)
    (hr : 1 ≤ rows) (hc : 1 ≤ cols)
    (h64 : rows * cols < 2 ^ 64) (hv : v.length = rows * cols) :
    ∃ w, transpose v rows cols = some w
      ∧ (∀ i j, i < rows → j < cols →
          w.getD (j * rows + i) d = v.getD (i * cols + j) d)
      ∧ w = copy_transpose v rows cols := by
  refine ⟨transposeSpec v rows cols, transpose_eq v rows cols h64 hv, ?_, rfl⟩
  intro i j hi hj
  exact transposeSpec_entry v rows cols d hv hi hj

/-- C1 witness: the 2 × 3 matrix [0,1,2,3,4,5]. -/
theorem claim_C1_witness :
    ∃ w, transpose ([0, 1, 2, 3, 4, 5] : List Nat) 2 3 = some w
      ∧ (∀ i j, i < 2 → j < 3 →
          w.getD (j * 2 + i) 0 = ([0, 1, 2, 3, 4, 5] : List Nat).getD (i * 3 + j) 0)
      ∧ w = copy_transpose [0, 1, 2, 3, 4, 5] 2 3 :=
  claim_C1 [0, 1, 2, 3, 4, 5] 2 3 0 (by decide) (by decide) (by decide) (by decide)

/-- C2: for all a, b, m ≥ 0 and every buffer V of length (a+b)·m, applying
shuffle and then unshuffle restores V, and applying unshuffle and then
shuffle likewise restores V — the two are exact mutual inverses. -/
theorem claim_C2 (v : List α) (a b m : Nat) (hv : v.length = (a + b) * m) :
    (shuffle v a b m).bind (fun w => unshuffle w a b m) = some v
      ∧ (unshuffle v a b m).bind (fun w => shuffle w a b m) = some v := by
  have hX : (v.take (a * m)).length = a * m := by
    rw [List.length_take, hv,
      Nat.min_eq_left (Nat.mul_le_mul (by omega) (Nat.le_refl m))]
  have hY : (v.drop (a * m)).length = b * m := by
    rw [List.length_drop, hv, Nat.add_mul]; omega
  constructor
  · rw [shuffle_eq v a b m hv]
    simp only [Option.some_bind]
    rw [unshuffle_eq _ a b m (riffle2_length a b m _ _ hX hY)]
    rw [evens_riffle2 a b m _ _ hX hY, odds_riffle2 a b m _ _ hX hY]
    rw [List.take_append_drop]
  · rw [unshuffle_eq v a b m hv]
    simp only [Option.some_bind]
    have hE := evens_length a b m v hv
    have hO := odds_length a b m v hv
    rw [shuffle_eq _ a b m (by rw [List.length_append, hE, hO, Nat.add_mul])]
    rw [List.take_left' hE, List.drop_left' hE]
    rw [riffle2_evens_odds a b m v hv]

/-- C2 witness: a = b = 1, m = 2 on [0,1,2,3]. -/
theorem claim_C2_witness :
    (shuffle ([0, 1, 2, 3] : List Nat) 1 1 2).bind (fun w => unshuffle w 1 1 2)
        = some [0, 1, 2, 3]
      ∧ (unshuffle ([0, 1, 2, 3] : List Nat) 1 1 2).bind (fun w => shuffle w 1 1 2)
        = some [0, 1, 2, 3] :=
  claim_C2 [0, 1, 2, 3] 1 1 2 (by decide)

/-- C3: for every a ≥ 1, b ≥ 1 and every buffer V of length a + b,
exchange(V, a, b) terminates and rearranges A ‖ B into B ‖ A: afterwards
V[i] = old V[a+i] for i < b and V[b+j] = old V[j] for j < a. -/
theorem claim_C3 (v : List α) (a b : Nat) (d : α) (ha : 1 ≤ a) (hb : 1 ≤ b)
    (hv : v.length = a + b) :
    ∃ w, exchange v a b = some w
      ∧ (∀ i, i < b → w.getD i d = v.getD (a + i) d)
      ∧ (∀ j, j < a → w.getD (b + j) d = v.getD j d) := by
  refine ⟨v.drop a ++ v.take a, exchange_eq v a b hv (Or.inr ⟨ha, hb⟩), ?_, ?_⟩
  · intro i hi
    rw [getD_append_left _ _ _ (by rw [List.length_drop, hv]; omega), getD_drop]
  · intro j hj
    rw [getD_append_right _ _ _ (by rw [List.length_drop, hv]; omega)]
    rw [show b + j - (v.drop a).length = j from by rw [List.length_drop, hv]; omega]
    exact getD_take v d hj

/-- C3 witness: a = 1, b = 2 on [10, 20, 30]. -/
theorem claim_C3_witness :
    ∃ w, exchange ([10, 20, 30] : List Nat) 1 2 = some w
      ∧ (∀ i, i < 2 → w.getD i 0 = ([10, 20, 30] : List Nat).getD (1 + i) 0)
      ∧ (∀ j, j < 1 → w.getD (2 + j) 0 = ([10, 20, 30] : List Nat).getD j 0) :=
  claim_C3 [10, 20, 30] 1 2 0 (by decide) (by decide) (by decide)

/-- C4: the claimed degenerate no-op does not hold of the code.  With a = 0
and b = 1 on the one-element buffer [5] (so |V| = a + b), the a < b branch
swaps nothing and recurses on exchange(V[..1], 0, 1) — the identical call —
so the recursion never returns (a stack overflow in the Rust build): no
amount of fuel produces a result.  The claim is right about the spec's
intent; the code is wrong (its own doc comment promises (a ‖ b) ↦ (b ‖ a),
which is the identity here).  All call sites guard the call with
a · m > 0 ∧ b · m > 0, so the code never reaches the degenerate case. -/
theorem claim_C4 : exchangeDiverges ([5] : List Nat) 0 1 :=
  fun fuel => exchangeF_zero_left fuel [5] 1 (by omega)

/-- C6 counterexample: at a = b = 1, m = 3 on V = [0,1,2,3,4,5] the code
returns [0,3,1,4,2,5].  The claim predicts the A-blocks collected in front —
element-wise V'[i·a + t] = V[i·(a+b) + t] — which at i = 1, t = 0 demands
V'[1] = V[2] = 2; the code gives V'[1] = 3. -/
theorem claim_C6_cex :
    shuffle ([0, 1, 2, 3, 4, 5] : List Nat) 1 1 3 = some [0, 3, 1, 4, 2, 5]
      ∧ ¬ ([0, 3, 1, 4, 2, 5] : List Nat).getD (1 * 1 + 0) 0
          = ([0, 1, 2, 3, 4, 5] : List Nat).getD (1 * (1 + 1) + 0) 0 :=
  ⟨by decide, by decide⟩

/-- C6 (amended): shuffle performs the opposite rewrite to the one claimed —
it takes the buffer laid out as the A-run followed by the B-run,
(A₀ A₁ … A_{m−1})(B₀ B₁ … B_{m−1}), and rewrites it to the interleaved
groups (A₀ B₀ A₁ B₁ … A_{m−1} B_{m−1}); element-wise, afterwards
V[i·(a+b) + t] = old V[i·a + t] for t < a and
V[i·(a+b) + a + t] = old V[a·m + i·b + t] for t < b, for every i < m. -/
theorem claim_C6 (v : List α) (a b m : Nat) (d : α) (hv : v.length = (a + b) * m) :
    ∃ w, shuffle v a b m = some w
      ∧ ∀ i, i < m →
        (∀ t, t < a → w.getD (i * (a + b) + t) d = v.getD (i * a + t) d)
        ∧ (∀ t, t < b → w.getD (i * (a + b) + a + t) d = v.getD (a * m + i * b + t) d) := by
  have hX : (v.take (a * m)).length = a * m := by
    rw [List.length_take, hv,
      Nat.min_eq_left (Nat.mul_le_mul (by omega) (Nat.le_refl m))]
  have hY : (v.drop (a * m)).length = b * m := by
    rw [List.length_drop, hv, Nat.add_mul]; omega
  refine ⟨_, shuffle_eq v a b m hv, ?_⟩
  intro i hi
  constructor
  · intro t ht
    rw [riffle2_getD_left a b d m _ _ i t hX hY hi ht]
    have hlt : i * a + t < a * m :=
      calc i * a + t < i * a + a := by omega
        _ = (i + 1) * a := (Nat.succ_mul _ _).symm
        _ ≤ m * a := Nat.mul_le_mul (by omega) (Nat.le_refl a)
        _ = a * m := Nat.mul_comm _ _
    exact getD_take v d hlt
  · intro t ht
    rw [riffle2_getD_right a b d m _ _ i t hX hY hi ht]
    rw [getD_drop]
    congr 1
    omega

/-- C6 witness (for the amended claim): a = b = 1, m = 3 on [0,…,5]. -/
theorem claim_C6_witness :
    ∃ w, shuffle ([0, 1, 2, 3, 4, 5] : List Nat) 1 1 3 = some w
      ∧ ∀ i, i < 3 →
        (∀ t, t < 1 → w.getD (i * (1 + 1) + t) 0
          = ([0, 1, 2, 3, 4, 5] : List Nat).getD (i * 1 + t) 0)
        ∧ (∀ t, t < 1 → w.getD (i * (1 + 1) + 1 + t) 0
          = ([0, 1, 2, 3, 4, 5] : List Nat).getD (1 * 3 + i * 1 + t) 0) :=
  claim_C6 [0, 1, 2, 3, 4, 5] 1 1 3 0 (by decide)

/-- C7 counterexample: at k = 2, n = 2 on V = [0,…,7] (blocks [[0,1],[2,3]]
and [[4,5],[6,7]]) the code returns [0,2,4,6,1,3,5,7].  The claim's
contract — the k·n × n matrix whose row i is column i mod n of block
⌊i/n⌋ — predicts [0,2,1,3,4,6,5,7].  The two differ (already at index 2). -/
theorem claim_C7_cex :
    transpose_join ([0, 1, 2, 3, 4, 5, 6, 7] : List Nat) 2 2
        = some [0, 2, 4, 6, 1, 3, 5, 7]
      ∧ ([0, 2, 4, 6, 1, 3, 5, 7] : List Nat) ≠ [0, 2, 1, 3, 4, 6, 5, 7] :=
  ⟨by decide, by decide⟩

/-- C7 (amended): transpose_join(V, k, n) (with the square_transpose
collaborator modelled as a correct n × n transpose) makes V the row-major
n × (k·n) matrix that is the transpose of the (k·n) × n matrix formed by
stacking the k input blocks vertically — element-wise, afterwards
V[j·(k·n) + i] = old V[i·n + j] for i < k·n, j < n.  (The contract the claim
states, with rows drawn from single block columns, is the dual
partition_transpose layout, not what the code computes.) -/
theorem claim_C7 (v : List α) (k n : Nat) (d : α) (hk : 1 ≤ k)
    (hv : v.length = k * n * n) :
    ∃ w, transpose_join v k n = some w
      ∧ ∀ i j, i < k * n → j < n → w.getD (j * (k * n) + i) d = v.getD (i * n + j) d := by
  refine ⟨_, transpose_join_eq v k n hk hv, ?_⟩
  intro i j hi hj
  exact transposeSpec_entry v (k * n) n d hv hi hj

/-- C7 witness (for the amended claim): k = 2, n = 2 on [0,…,7]. -/
theorem claim_C7_witness :
    ∃ w, transpose_join ([0, 1, 2, 3, 4, 5, 6, 7] : List Nat) 2 2 = some w
      ∧ ∀ i j, i < 2 * 2 → j < 2 → w.getD (j * (2 * 2) + i) 0
          = ([0, 1, 2, 3, 4, 5, 6, 7] : List Nat).getD (i * 2 + j) 0 :=
  claim_C7 [0, 1, 2, 3, 4, 5, 6, 7] 2 2 0 (by decide) (by decide)

/-- C8 counterexample: with rows = cols = 2^32 the usize product wraps to 0
in a release build, so the length assertion accepts the empty buffer and the
code proceeds (into the square branch) rather than refusing to run, even
though the true product 2^64 overflows and differs from |V|. -/
theorem claim_C8_cex :
    transpose ([] : List Nat) (2 ^ 32) (2 ^ 32) ≠ none
      ∧ 2 ^ 32 * 2 ^ 32 ≠ ([] : List Nat).length := by
  constructor
  · rw [show transpose ([] : List Nat) (2 ^ 32) (2 ^ 32)
        = some (square_transpose ([] : List Nat) (2 ^ 32)) from rfl]
    exact Option.some_ne_none _
  · decide

/-- C8 (amended): the multiplication computing rows·cols is not
overflow-checked — in a release build it wraps modulo 2^64, and the
assertion compares |V| against the wrapped product, so on overflow the
function can proceed with a wrapped value.  When the product does not
overflow, transpose aborts exactly on |V| ≠ rows·cols and has no other
failure mode: on every valid input it runs to completion. -/
theorem claim_C8 (v : List α) (rows cols : Nat) (h64 : rows * cols < 2 ^ 64) :
    (transpose v rows cols = none ↔ v.length ≠ rows * cols)
      ∧ (v.length = rows * cols →
          transpose v rows cols = some (transposeSpec v rows cols)) := by
  have hwrap : usizeWrap (rows * cols) = rows * cols := Nat.mod_eq_of_lt h64
  constructor
  · constructor
    · intro hnone hlen
      rw [transpose_eq v rows cols h64 hlen] at hnone
      exact Option.noConfusion hnone
    · intro hne
      rw [transpose, if_neg (by rw [hwrap]; exact hne)]
  · exact transpose_eq v rows cols h64

/-- C8 witness (for the amended claim): the 2 × 3 matrix [0,…,5]. -/
theorem claim_C8_witness :
    (transpose ([0, 1, 2, 3, 4, 5] : List Nat) 2 3 = none
        ↔ ([0, 1, 2, 3, 4, 5] : List Nat).length ≠ 2 * 3)
      ∧ (([0, 1, 2, 3, 4, 5] : List Nat).length = 2 * 3 →
          transpose ([0, 1, 2, 3, 4, 5] : List Nat) 2 3
            = some (transposeSpec [0, 1, 2, 3, 4, 5] 2 3)) :=
  claim_C8 [0, 1, 2, 3, 4, 5] 2 3 (by decide)

/-- C10 counterexample: exchange on the valid input V = [7] with a = 0,
b = 1 (so |V| = a + b) never returns — no fuel produces a result — so it
does not act as a permutation of its slice there. -/
theorem claim_C10_cex : exchangeDiverges ([7] : List Nat) 0 1 :=
  fun fuel => exchangeF_zero_left fuel [7] 1 (by omega)

/-- C10 (amended): every core operation acts as a permutation of the slice
it receives — it returns a buffer with the same length and multiset of
elements, creating, losing or duplicating nothing — on every valid input on
which it terminates: exchange whenever a = b or a, b ≥ 1 (with exactly one
of a, b zero it never returns), and shuffle, unshuffle, transpose_join,
partition_transpose and transpose unconditionally on their contract
lengths. -/
theorem claim_C10 :
    (∀ (v : List α) (a b : Nat), v.length = a + b → (a = b ∨ (1 ≤ a ∧ 1 ≤ b)) →
      ∃ w, exchange v a b = some w ∧ w.Perm v)
    ∧ (∀ (v : List α) (a b m : Nat), v.length = (a + b) * m →
      ∃ w, shuffle v a b m = some w ∧ w.Perm v)
    ∧ (∀ (v : List α) (a b m : Nat), v.length = (a + b) * m →
      ∃ w, unshuffle v a b m = some w ∧ w.Perm v)
    ∧ (∀ (v : List α) (k n : Nat), 1 ≤ k → v.length = k * n * n →
      ∃ w, transpose_join v k n = some w ∧ w.Perm v)
    ∧ (∀ (v : List α) (k n : Nat), 1 ≤ k → v.length = k * n * n →
      ∃ w, partition_transpose v k n = some w ∧ w.Perm v)
    ∧ (∀ (v : List α) (rows cols : Nat), rows * cols < 2 ^ 64 →
      v.length = rows * cols →
      ∃ w, transpose v rows cols = some w ∧ w.Perm v) := by
  refine ⟨?_, ?_, ?_, ?_, ?_, ?_⟩
  · intro v a b hv hab
    refine ⟨_, exchange_eq v a b hv hab, ?_⟩
    have h := @List.perm_append_comm α (v.drop a) (v.take a)
    have h3 : v.take a ++ v.drop a = v := List.take_append_drop a v
    rw [h3] at h
    exact h
  · intro v a b m hv
    refine ⟨_, shuffle_eq v a b m hv, ?_⟩
    have hX : (v.take (a * m)).length = a * m := by
      rw [List.length_take, hv,
        Nat.min_eq_left (Nat.mul_le_mul (by omega) (Nat.le_refl m))]
    have hY : (v.drop (a * m)).length = b * m := by
      rw [List.length_drop, hv, Nat.add_mul]; omega
    have h := riffle2_perm a b m (v.take (a * m)) (v.drop (a * m)) hX hY
    rw [List.take_append_drop] at h
    exact h
  · intro v a b m hv
    exact ⟨_, unshuffle_eq v a b m hv, unriffle_perm v a b m hv⟩
  · intro v k n hk hv
    exact ⟨_, transpose_join_eq v k n hk hv, transposeSpec_perm (k * n) v n hv⟩
  · intro v k n hk hv
    refine ⟨_, partition_transpose_eq v k n hk hv, ?_⟩
    exact transposeSpec_perm n v (k * n) (by rw [hv]; ring)
  · intro v rows cols h64 hv
    exact ⟨_, transpose_eq v rows cols h64 hv, transposeSpec_perm rows v cols hv⟩

/-- C10 witness (for the amended claim): each operation at a small concrete
input. -/
theorem claim_C10_witness :
    (∃ w, exchange ([0, 1, 2] : List Nat) 1 2 = some w ∧ w.Perm [0, 1, 2])
    ∧ (∃ w, shuffle ([0, 1, 2, 3] : List Nat) 1 1 2 = some w ∧ w.Perm [0, 1, 2, 3])
    ∧ (∃ w, unshuffle ([0, 1, 2, 3] : List Nat) 1 1 2 = some w ∧ w.Perm [0, 1, 2, 3])
    ∧ (∃ w, transpose_join ([0, 1, 2, 3] : List Nat) 1 2 = some w ∧ w.Perm [0, 1, 2, 3])
    ∧ (∃ w, partition_transpose ([0, 1, 2, 3] : List Nat) 1 2 = some w
        ∧ w.Perm [0, 1, 2, 3])
    ∧ (∃ w, transpose ([0, 1, 2, 3, 4, 5] : List Nat) 2 3 = some w
        ∧ w.Perm [0, 1, 2, 3, 4, 5]) :=
  ⟨claim_C10.1 [0, 1, 2] 1 2 (by decide) (Or.inr ⟨by decide, by decide⟩),
    claim_C10.2.1 [0, 1, 2, 3] 1 1 2 (by decide),
    claim_C10.2.2.1 [0, 1, 2, 3] 1 1 2 (by decide),
    claim_C10.2.2.2.1 [0, 1, 2, 3] 1 2 (by decide) (by decide),
    claim_C10.2.2.2.2.1 [0, 1, 2, 3] 1 2 (by decide) (by decide),
    claim_C10.2.2.2.2.2 [0, 1, 2, 3, 4, 5] 2 3 (by decide) (by decide)⟩

end GW18
